import Mathlib

/-!
Verification of the doc-enhancer repository's core string-manipulation logic.

JavaScript strings are modelled as `List Char`; the JS standard-library
operations used by the code (`substring`, `trim`, `indexOf`, `split`,
global literal replacement, the two regexes of the response extractor)
are given faithful executable models, and the repository's functions are
translated on top of them.
-/

/-- JavaScript `String.prototype.substring(a, b)`: both indices are clamped
to the string length and swapped when out of order. -/
def jsSubstring (s : List Char) (a b : Nat) : List Char :=
  let a' := min a s.length
  let b' := min b s.length
  if a' ≤ b' then (s.take b').drop a' else (s.take a').drop b'

/-- Whitespace as recognised by JS `trim` / `\s` (ASCII part, which is all
the repository's data uses). -/
def isJsWs (c : Char) : Bool :=
  c = ' ' || c = '\t' || c = '\n' || c = '\r' || c = '\x0b' || c = '\x0c'

/-- JavaScript `String.prototype.trim`: strip whitespace from both ends. -/
def jsTrim (s : List Char) : List Char :=
  ((s.dropWhile isJsWs).reverse.dropWhile isJsWs).reverse

/-- JavaScript `String.prototype.indexOf` for a literal search string:
index of the first occurrence, `none` standing for JS's `-1`. -/
def firstIdxOf (s pat : List Char) : Option Nat :=
  if pat.isPrefixOf s then some 0
  else
    match s with
    | [] => none
    | _ :: t => (firstIdxOf t pat).map (· + 1)

/-- `pat` occurs in `s` at position `i`. -/
def OccAt (s pat : List Char) (i : Nat) : Prop := pat <+: s.drop i

instance (s pat : List Char) (i : Nat) : Decidable (OccAt s pat i) := by
  unfold OccAt; infer_instance

theorem isPrefixOf_iff_isPre {l₁ l₂ : List Char} :
    l₁.isPrefixOf l₂ = true ↔ l₁ <+: l₂ := by
  induction l₁ generalizing l₂ with
  | nil => simp [List.isPrefixOf, List.nil_prefix]
  | cons a t ih =>
    cases l₂ with
    | nil => simp [List.isPrefixOf]
    | cons b t₂ =>
      simp only [List.isPrefixOf, Bool.and_eq_true, beq_iff_eq, ih,
        List.cons_prefix_cons]

theorem firstIdxOf_eq_some {s pat : List Char} {i : Nat}
    (h : firstIdxOf s pat = some i) :
    OccAt s pat i ∧ ∀ j, j < i → ¬ OccAt s pat j := by
  induction s generalizing i with
  | nil =>
    unfold firstIdxOf at h
    split at h
    · rename_i hp
      cases h
      exact ⟨isPrefixOf_iff_isPre.mp hp, fun j hj => absurd hj (Nat.not_lt_zero j)⟩
    · simp at h
  | cons c t ih =>
    unfold firstIdxOf at h
    split at h
    · rename_i hp
      cases h
      exact ⟨isPrefixOf_iff_isPre.mp hp, fun j hj => absurd hj (Nat.not_lt_zero j)⟩
    · rename_i hp
      simp only [Option.map_eq_some'] at h
      obtain ⟨i', hi', rfl⟩ := h
      obtain ⟨hocc, hmin⟩ := ih hi'
      refine ⟨hocc, ?_⟩
      intro j hj
      cases j with
      | zero =>
        intro hc
        exact hp (isPrefixOf_iff_isPre.mpr hc)
      | succ j' =>
        exact hmin j' (Nat.lt_of_succ_lt_succ hj)

theorem firstIdxOf_eq_none {s pat : List Char}
    (h : firstIdxOf s pat = none) : ∀ i, ¬ OccAt s pat i := by
  induction s with
  | nil =>
    intro i hocc
    unfold firstIdxOf at h
    split at h
    · simp at h
    · rename_i hp
      cases i with
      | zero => exact hp (isPrefixOf_iff_isPre.mpr hocc)
      | succ i' =>
        unfold OccAt at hocc
        simp only [List.drop_nil] at hocc
        exact hp (isPrefixOf_iff_isPre.mpr (by simpa [OccAt] using hocc))
  | cons c t ih =>
    intro i hocc
    unfold firstIdxOf at h
    split at h
    · simp at h
    · rename_i hp
      simp only [Option.map_eq_none'] at h
      cases i with
      | zero => exact hp (isPrefixOf_iff_isPre.mpr hocc)
      | succ i' => exact ih h i' hocc

theorem occAt_of_decomp {p pat s : List Char} :
    OccAt (p ++ pat ++ s) pat p.length := by
  unfold OccAt
  rw [List.append_assoc, List.drop_left]
  exact ⟨s, rfl⟩

theorem firstIdxOf_decomp {s pat : List Char} {i : Nat}
    (h : firstIdxOf s pat = some i) :
    s = s.take i ++ pat ++ s.drop (i + pat.length) ∧ i + pat.length ≤ s.length := by
  obtain ⟨hocc, -⟩ := firstIdxOf_eq_some h
  obtain ⟨r, hr⟩ := hocc
  have hi : i ≤ s.length := by
    by_contra hlt
    push_neg at hlt
    rw [List.drop_eq_nil_of_le (Nat.le_of_lt hlt)] at hr
    have : pat = [] ∧ r = [] := by
      constructor
      · cases pat with
        | nil => rfl
        | cons a t => simp at hr
      · cases pat with
        | nil => simpa using hr
        | cons a t => simp at hr
    -- if pat is empty, firstIdxOf returns `some 0` immediately, so i = 0
    obtain ⟨hpat, -⟩ := this
    subst hpat
    unfold firstIdxOf at h
    rw [if_pos (by simp [List.isPrefixOf])] at h
    cases h
    exact absurd (Nat.zero_le s.length) (by omega)
  have hdrop : s.drop (i + pat.length) = r := by
    have h1 : (s.drop i).drop pat.length = r := by
      rw [← hr, List.drop_left]
    calc s.drop (i + pat.length) = (s.drop i).drop pat.length := by
          rw [List.drop_drop, Nat.add_comm]
      _ = r := h1
  constructor
  · conv_lhs => rw [← List.take_append_drop i s]
    rw [List.append_assoc, hdrop, hr]
  · have hlen := congrArg List.length hr
    rw [List.length_drop, List.length_append] at hlen
    omega

/-!
## Content Replacement (`replaceTextInDocument`,
`src/components/enhancement/InlineEnhancementDoc.tsx`)

The React component keeps the document text in a state variable; the
handler either replaces the first occurrence and shows a green "Text
Enhanced" toast, or leaves the state untouched and shows a red error
toast.  We model the resulting document content together with the
notification shown.
-/

structure ReplaceResult where
  documentContent : List Char
  notificationTitle : List Char
  notificationMessage : List Char
  notificationColor : List Char

/-- Model of `replaceTextInDocument` from `InlineEnhancementDoc.tsx`:
`indexOf`, then splice `before + newText + after`, or report
"Could not find the text to replace in the document" leaving the
content unchanged. -/
def replaceTextInDocument (documentContent originalText newText : List Char) :
    ReplaceResult :=
  match firstIdxOf documentContent originalText with
  | some selectionStart =>
    let before := jsSubstring documentContent 0 selectionStart
    let after :=
      jsSubstring documentContent (selectionStart + originalText.length)
        documentContent.length
    { documentContent := before ++ newText ++ after
      notificationTitle := ("Text Enhanced").toList
      notificationMessage := ("The selected text has been enhanced.").toList
      notificationColor := ("green").toList }
  | none =>
    { documentContent := documentContent
      notificationTitle := ("Error").toList
      notificationMessage :=
        ("Could not find the text to replace in the document").toList
      notificationColor := ("red").toList }

theorem jsSubstring_take {s : List Char} {i : Nat} (h : i ≤ s.length) :
    jsSubstring s 0 i = s.take i := by
  unfold jsSubstring
  simp only [Nat.min_eq_left h, Nat.zero_min]
  rw [if_pos (Nat.zero_le i)]
  simp

theorem jsSubstring_drop {s : List Char} {i : Nat} (h : i ≤ s.length) :
    jsSubstring s i s.length = s.drop i := by
  unfold jsSubstring
  simp only [Nat.min_eq_left h, Nat.min_self]
  rw [if_pos h, List.take_length]

/-- Claim C2 (Content Replacement success case): when the document
decomposes as `p ++ orig ++ s` and no occurrence of `orig` starts before
`p.length` (in particular when that occurrence is unique),
`replaceTextInDocument` yields `p ++ new ++ s`: the first occurrence is
substituted and everything before and after it is preserved. -/
theorem contentReplacement_success (doc orig new p s : List Char)
    (hdec : doc = p ++ orig ++ s)
    (hfirst : ∀ j, j < p.length → ¬ OccAt doc orig j) :
    (replaceTextInDocument doc orig new).documentContent = p ++ new ++ s ∧
    (replaceTextInDocument doc orig new).notificationColor = ("green").toList := by
  have hocc : OccAt doc orig p.length := hdec ▸ occAt_of_decomp
  have hidx : firstIdxOf doc orig = some p.length := by
    cases hf : firstIdxOf doc orig with
    | none => exact absurd hocc (firstIdxOf_eq_none hf p.length)
    | some i =>
      obtain ⟨hocc', hmin⟩ := firstIdxOf_eq_some hf
      have h1 : ¬ i < p.length := fun hlt => hfirst i hlt hocc'
      have h2 : ¬ p.length < i := fun hlt => hmin p.length hlt hocc
      have : i = p.length := by omega
      rw [this]
  have hplen : p.length ≤ doc.length := by
    subst hdec; simp only [List.length_append]; omega
  have holen : p.length + orig.length ≤ doc.length := by
    subst hdec; simp only [List.length_append]; omega
  have htake : doc.take p.length = p := by
    subst hdec; rw [List.append_assoc, List.take_left]
  have hdrop : doc.drop (p.length + orig.length) = s := by
    subst hdec
    rw [← List.length_append, List.drop_left]
  constructor
  · unfold replaceTextInDocument
    rw [hidx]
    simp only
    rw [jsSubstring_take hplen, jsSubstring_drop holen, htake, hdrop]
  · unfold replaceTextInDocument
    rw [hidx]

theorem contentReplacement_success_witness :
    ("aXb").toList = ("a").toList ++ ("X").toList ++ ("b").toList ∧
    (replaceTextInDocument (("aXb").toList) (("X").toList) (("Y").toList)).documentContent
      = ("a").toList ++ ("Y").toList ++ ("b").toList :=
  ⟨by decide,
   (contentReplacement_success (("aXb").toList) (("X").toList) (("Y").toList)
      (("a").toList) (("b").toList) (by decide) (by decide)).1⟩

theorem infix_iff_exists_occAt {s pat : List Char} :
    pat <:+: s ↔ ∃ i, OccAt s pat i := by
  constructor
  · rintro ⟨a, b, rfl⟩
    exact ⟨a.length, occAt_of_decomp⟩
  · rintro ⟨i, r, hr⟩
    exact ⟨s.take i, r, by rw [List.append_assoc, hr, List.take_append_drop]⟩

/-- Claim C3 (Content Replacement failure atomicity): when the original
text does not occur in the document, the document content is returned
byte-for-byte unchanged and a red error notification
"Could not find the text to replace in the document" is shown. -/
theorem contentReplacement_failure_atomic (doc orig new : List Char)
    (h : ¬ orig <:+: doc) :
    (replaceTextInDocument doc orig new).documentContent = doc ∧
    (replaceTextInDocument doc orig new).notificationTitle = ("Error").toList ∧
    (replaceTextInDocument doc orig new).notificationMessage
      = ("Could not find the text to replace in the document").toList ∧
    (replaceTextInDocument doc orig new).notificationColor = ("red").toList := by
  have hidx : firstIdxOf doc orig = none := by
    cases hf : firstIdxOf doc orig with
    | none => rfl
    | some i =>
      exact absurd (infix_iff_exists_occAt.mpr ⟨i, (firstIdxOf_eq_some hf).1⟩) h
  unfold replaceTextInDocument
  rw [hidx]
  exact ⟨rfl, rfl, rfl, rfl⟩

theorem contentReplacement_failure_witness :
    ¬ ("xyz").toList <:+: ("abc").toList ∧
    (replaceTextInDocument (("abc").toList) (("xyz").toList) (("Y").toList)).documentContent
      = ("abc").toList :=
  ⟨by decide,
   (contentReplacement_failure_atomic (("abc").toList) (("xyz").toList)
      (("Y").toList) (by decide)).1⟩

/-!
## Selection Context Resolver (`extractParagraphWithSelection`,
`src/lib/api-client.ts`)

The source scans backwards from `selectionStart` for a position preceded
by two newlines, forwards from `selectionEnd` for a position followed by
two newlines, trims the paragraph in between, and wraps the first
`indexOf` occurrence of the selected text in `<target>` sentinels, with a
fallback wrapping just the raw selected text.
-/

/-- The backwards scan of `extractParagraphWithSelection`: decrement
`paragraphStart` until `fullText[p-1] === '\n' && fullText[p-2] === '\n'`
(false at `p = 1`, where JS reads `fullText[-1] === undefined`). -/
def findParaStart (s : List Char) : Nat → Nat
  | 0 => 0
  | p + 1 =>
    if 1 ≤ p ∧ s.get? (p - 1) = some '\n' ∧ s.get? p = some '\n' then p + 1
    else findParaStart s p

/-- The forwards scan, expressed structurally on the remaining suffix
`rest = s.drop p`: increment `paragraphEnd` while `p < s.length` and
`fullText[p]`, `fullText[p+1]` are not both newlines. -/
def findParaEndAux : List Char → Nat → Nat
  | [], p => p
  | c :: t, p =>
    if c = '\n' ∧ t.head? = some '\n' then p
    else findParaEndAux t (p + 1)

def findParaEnd (s : List Char) (p : Nat) : Nat :=
  findParaEndAux (s.drop p) p

/-- The trimmed enclosing paragraph computed by the source:
`fullText.substring(paragraphStart, paragraphEnd).trim()`. -/
def codeParagraph (fullText : List Char) (selectionStart selectionEnd : Nat) :
    List Char :=
  jsTrim (jsSubstring fullText (findParaStart fullText selectionStart)
    (findParaEnd fullText selectionEnd))

structure ExtractResult where
  paragraphWithSelection : List Char
  selectedText : List Char

/-- Model of `extractParagraphWithSelection` from `src/lib/api-client.ts`
(the identical copy also appears in the unnamed api-client source). -/
def extractParagraphWithSelection (fullText : List Char)
    (selectionStart selectionEnd : Nat) : ExtractResult :=
  let selectedText := jsSubstring fullText selectionStart selectionEnd
  let paragraph := codeParagraph fullText selectionStart selectionEnd
  match firstIdxOf paragraph selectedText with
  | none =>
    { paragraphWithSelection :=
        ("<target>").toList ++ selectedText ++ ("</target>").toList
      selectedText := selectedText }
  | some idx =>
    let before := jsSubstring paragraph 0 idx
    let after :=
      jsSubstring paragraph (idx + selectedText.length) paragraph.length
    { paragraphWithSelection :=
        before ++ ("<target>").toList ++ selectedText
          ++ ("</target>").toList ++ after
      selectedText := selectedText }

/-- Claim C4 (Resolver fallback totality): `extractParagraphWithSelection`
is total (it is a Lean function, so it never throws), always returns the
raw selected substring as `selectedText`, and in the not-found branch of
the `indexOf` search returns exactly `<target> ++ selectedText ++
</target>`. -/
theorem resolverFallback (fullText : List Char) (selectionStart selectionEnd : Nat) :
    (extractParagraphWithSelection fullText selectionStart selectionEnd).selectedText
      = jsSubstring fullText selectionStart selectionEnd ∧
    (firstIdxOf (codeParagraph fullText selectionStart selectionEnd)
        (jsSubstring fullText selectionStart selectionEnd) = none →
      (extractParagraphWithSelection fullText selectionStart selectionEnd).paragraphWithSelection
        = ("<target>").toList ++ jsSubstring fullText selectionStart selectionEnd
            ++ ("</target>").toList) := by
  unfold extractParagraphWithSelection
  dsimp only
  constructor
  · split <;> rfl
  · intro h
    rw [h]

theorem resolverFallback_witness :
    firstIdxOf (codeParagraph (("  ab").toList) 0 3)
        (jsSubstring (("  ab").toList) 0 3) = none ∧
    (extractParagraphWithSelection (("  ab").toList) 0 3).paragraphWithSelection
      = ("<target>  a</target>").toList :=
  ⟨by decide,
   by
    have h := (resolverFallback (("  ab").toList) 0 3).2 (by decide)
    rw [h]; decide⟩

/-!
## Empty-selection handling

`extractParagraphWithSelection` itself performs no empty-selection check:
for `selectionStart = selectionEnd` the selected text is `""`, JS
`indexOf("")` returns `0`, and the function returns an ordinary
sentinel-wrapped result.  The empty-selection guard lives in the caller
`FloatingEnhanceMenu.handleSelectionChange`, which hides the enhancement
menu whenever the trimmed selection text is empty or absent.
-/

/-- Model of `FloatingEnhanceMenu.handleSelectionChange` (unnamed source,
`FloatingEnhanceMenu`): returns the value passed to `setShowMenu`, or
`none` when the handler makes no `setShowMenu` call.  `selectionText` is
`selection?.toString()` (absent when `window.getSelection()` is null). -/
def handleSelectionChange (selectionText : Option (List Char))
    (containerMounted : Bool) (rangeCount : Nat) (withinContainer : Bool) :
    Option Bool :=
  match selectionText with
  | none => some false
  | some raw =>
    let text := jsTrim raw
    if text.length = 0 then some false
    else if containerMounted ∧ 0 < rangeCount then
      (if withinContainer then some true else some false)
    else none

theorem jsSubstring_self_idx (s : List Char) (p : Nat) : jsSubstring s p p = [] := by
  unfold jsSubstring
  dsimp only
  rw [if_pos (le_refl _)]
  exact List.drop_eq_nil_of_le (by rw [List.length_take]; exact min_le_left _ _)

theorem firstIdxOf_nil_pat (s : List Char) : firstIdxOf s [] = some 0 := by
  unfold firstIdxOf
  exact if_pos (isPrefixOf_iff_isPre.mpr List.nil_prefix)

/-- Claim C5 counterexample: for document "ab" and the empty selection at
offset 0, the resolver returns the ordinary sentinel-wrapped string
`<target></target>ab` (with empty `selectedText`), not a distinguished
"no selection" signal. -/
theorem emptySelectionCounterexample :
    (extractParagraphWithSelection (("ab").toList) 0 0).paragraphWithSelection
      = ("<target></target>ab").toList ∧
    (extractParagraphWithSelection (("ab").toList) 0 0).selectedText = [] := by
  decide

/-- Claim C5 (amended): the resolver itself returns, for every empty
selection, `selectedText = ""` and `<target></target>` prefixed to the
enclosing trimmed paragraph — an ordinary sentinel-wrapped result, not a
distinguished signal.  The "no selection" signalling lives in the caller:
`handleSelectionChange` sets `showMenu` to `false` (so enhancement cannot
be invoked) whenever the selection is absent or trims to the empty
string. -/
theorem emptySelectionHandling (fullText : List Char) (p : Nat) :
    (extractParagraphWithSelection fullText p p).selectedText = [] ∧
    (extractParagraphWithSelection fullText p p).paragraphWithSelection
      = ("<target></target>").toList ++ codeParagraph fullText p p ∧
    (∀ mounted rc within,
      handleSelectionChange none mounted rc within = some false) ∧
    (∀ raw mounted rc within, jsTrim raw = [] →
      handleSelectionChange (some raw) mounted rc within = some false) := by
  refine ⟨?_, ?_, ?_, ?_⟩
  · unfold extractParagraphWithSelection
    dsimp only
    rw [jsSubstring_self_idx, firstIdxOf_nil_pat]
  · unfold extractParagraphWithSelection
    dsimp only
    rw [jsSubstring_self_idx, firstIdxOf_nil_pat]
    dsimp only
    rw [jsSubstring_self_idx]
    rw [show (0 : Nat) + List.length [] = 0 from rfl,
      jsSubstring_drop (Nat.zero_le _), List.drop_zero, List.nil_append,
      List.append_nil]
    rfl
  · intro mounted rc within; rfl
  · intro raw mounted rc within h
    unfold handleSelectionChange
    dsimp only
    rw [h]
    rfl

theorem emptySelectionHandling_witness :
    (extractParagraphWithSelection (("ab").toList) 1 1).paragraphWithSelection
      = ("<target></target>").toList ++ codeParagraph (("ab").toList) 1 1 ∧
    handleSelectionChange (some (("  ").toList)) true 1 true = some false :=
  ⟨(emptySelectionHandling (("ab").toList) 1).2.1,
   (emptySelectionHandling (("ab").toList) 1).2.2.2 (("  ").toList) true 1 true
     (by decide)⟩

/-!
## Sentinel round-trip (claim C1)

Spec-side characterisation of "the maximal double-newline-delimited block
of `fullText` containing the selection": its start is the largest
position `≤ selectionStart` that is `0` or immediately preceded by
`"\n\n"`, its end the smallest position `≥ selectionEnd` that is the text
end or immediately followed by `"\n\n"`, and no `"\n\n"` lies wholly
inside it.
-/

/-- A `"\n\n"` boundary occupies positions `i` and `i + 1`. -/
def doubleNLAt (s : List Char) (i : Nat) : Prop :=
  s.get? i = some '\n' ∧ s.get? (i + 1) = some '\n'

instance (s : List Char) (i : Nat) : Decidable (doubleNLAt s i) := by
  unfold doubleNLAt; infer_instance

/-- `p` is a possible paragraph start: the text start, or a position
immediately preceded by a `"\n\n"` boundary. -/
def paraStartCond (s : List Char) (p : Nat) : Prop :=
  p = 0 ∨ (2 ≤ p ∧ doubleNLAt s (p - 2))

/-- `p` is a possible paragraph end: the text end, or a position
immediately followed by a `"\n\n"` boundary. -/
def paraEndCond (s : List Char) (p : Nat) : Prop :=
  p = s.length ∨ doubleNLAt s p

/-- The selection `[selStart, selEnd)` overlaps no `"\n\n"` boundary. -/
def NoCrossDoubleNL (s : List Char) (selStart selEnd : Nat) : Prop :=
  ∀ i, i < selEnd → selStart ≤ i + 1 → ¬ doubleNLAt s i

instance (s : List Char) (a b : Nat) : Decidable (NoCrossDoubleNL s a b) := by
  unfold NoCrossDoubleNL; infer_instance

/-- `[pS, pE)` is the maximal double-newline-delimited block of `s`
containing the selection `[selStart, selEnd)`. -/
def IsEnclosingBlock (s : List Char) (selStart selEnd pS pE : Nat) : Prop :=
  pS ≤ selStart ∧ selEnd ≤ pE ∧ pE ≤ s.length ∧
  paraStartCond s pS ∧ paraEndCond s pE ∧
  (∀ q, q ≤ selStart → paraStartCond s q → q ≤ pS) ∧
  (∀ q, selEnd ≤ q → paraEndCond s q → pE ≤ q) ∧
  (∀ i, pS ≤ i → i + 1 < pE → ¬ doubleNLAt s i)

theorem findParaStart_le (s : List Char) (p : Nat) : findParaStart s p ≤ p := by
  induction p with
  | zero => simp [findParaStart]
  | succ p ih =>
    unfold findParaStart
    split
    · exact le_refl _
    · exact Nat.le_succ_of_le ih

theorem findParaStart_cond (s : List Char) (p : Nat) :
    paraStartCond s (findParaStart s p) := by
  induction p with
  | zero => exact Or.inl rfl
  | succ p ih =>
    unfold findParaStart
    split
    · rename_i h
      obtain ⟨h1, h2, h3⟩ := h
      right
      refine ⟨by omega, ?_, ?_⟩
      · have he : p + 1 - 2 = p - 1 := by omega
        rw [he]; exact h2
      · have he : p + 1 - 2 + 1 = p := by omega
        rw [he]; exact h3
    · exact ih

theorem findParaStart_max (s : List Char) (p : Nat) :
    ∀ q, q ≤ p → paraStartCond s q → q ≤ findParaStart s p := by
  induction p with
  | zero =>
    intro q hq _
    simpa [findParaStart] using hq
  | succ p ih =>
    intro q hq hc
    unfold findParaStart
    split
    · exact hq
    · rename_i hcond
      rcases Nat.lt_or_ge q (p + 1) with h | h
      · exact ih q (by omega) hc
      · exfalso
        have hq1 : q = p + 1 := by omega
        subst hq1
        rcases hc with h0 | ⟨h2, hd⟩
        · omega
        · apply hcond
          have he : p + 1 - 2 = p - 1 := by omega
          rw [he] at hd
          unfold doubleNLAt at hd
          have he2 : p - 1 + 1 = p := by omega
          rw [he2] at hd
          exact ⟨by omega, hd.1, hd.2⟩

theorem findParaEndAux_ge (rest : List Char) :
    ∀ p, p ≤ findParaEndAux rest p := by
  induction rest with
  | nil => intro p; simp [findParaEndAux]
  | cons c t ih =>
    intro p
    unfold findParaEndAux
    split
    · exact le_refl _
    · exact le_trans (Nat.le_succ p) (ih (p + 1))

theorem drop_cons_facts {s : List Char} {p : Nat} {c : Char} {t : List Char}
    (h : s.drop p = c :: t) :
    s.get? p = some c ∧ t.head? = s.get? (p + 1) ∧ s.drop (p + 1) = t ∧
      p < s.length := by
  have hdrop1 : s.drop (p + 1) = t := by
    rw [← List.tail_drop, h]
    rfl
  have hget : s.get? p = some c := by
    have := List.get?_drop s p 0
    rw [h] at this
    simpa using this.symm
  have hget1 : t.head? = s.get? (p + 1) := by
    have := List.get?_drop s (p + 1) 0
    rw [hdrop1] at this
    cases t with
    | nil => simpa using this
    | cons a t' => simpa using this
  refine ⟨hget, hget1, hdrop1, ?_⟩
  by_contra hlen
  push_neg at hlen
  rw [List.drop_eq_nil_of_le hlen] at h
  cases h

theorem findParaEndAux_cond (s : List Char) :
    ∀ rest p, s.drop p = rest → p ≤ s.length →
      paraEndCond s (findParaEndAux rest p) ∧ findParaEndAux rest p ≤ s.length := by
  intro rest
  induction rest with
  | nil =>
    intro p hdrop hp
    have hlen := List.drop_eq_nil_iff.mp hdrop
    refine ⟨Or.inl ?_, ?_⟩ <;> · simp only [findParaEndAux]; omega
  | cons c t ih =>
    intro p hdrop hp
    obtain ⟨hget, hget1, hdrop1, hlt⟩ := drop_cons_facts hdrop
    unfold findParaEndAux
    split
    · rename_i hc
      refine ⟨Or.inr ⟨?_, ?_⟩, by omega⟩
      · rw [hget, hc.1]
      · rw [← hget1, hc.2]
    · exact ih (p + 1) hdrop1 (by omega)

theorem findParaEndAux_min (s : List Char) :
    ∀ rest p, s.drop p = rest →
      ∀ q, p ≤ q → paraEndCond s q → findParaEndAux rest p ≤ q := by
  intro rest
  induction rest with
  | nil =>
    intro p _ q hq _
    simpa [findParaEndAux] using hq
  | cons c t ih =>
    intro p hdrop q hq hc
    obtain ⟨hget, hget1, hdrop1, hlt⟩ := drop_cons_facts hdrop
    unfold findParaEndAux
    split
    · exact hq
    · rename_i hcond
      rcases Nat.lt_or_ge p q with h | h
      · exact ih (p + 1) hdrop1 q (by omega) hc
      · exfalso
        have hpq : q = p := by omega
        subst hpq
        rcases hc with h0 | hd
        · omega
        · unfold doubleNLAt at hd
          exact hcond ⟨by rw [hget] at hd; exact Option.some.inj hd.1 ▸ rfl,
            by rw [hget1]; exact hd.2⟩

theorem findParaEnd_props (s : List Char) (p : Nat) (hp : p ≤ s.length) :
    p ≤ findParaEnd s p ∧ paraEndCond s (findParaEnd s p) ∧
      findParaEnd s p ≤ s.length ∧
      (∀ q, p ≤ q → paraEndCond s q → findParaEnd s p ≤ q) := by
  unfold findParaEnd
  obtain ⟨h1, h2⟩ := findParaEndAux_cond s (s.drop p) p rfl hp
  exact ⟨findParaEndAux_ge _ p, h1, h2, findParaEndAux_min s (s.drop p) p rfl⟩

/-- Claim C1 (Sentinel round-trip): for a non-empty in-range selection
crossing no `"\n\n"` boundary whose text is found verbatim in the
enclosing trimmed paragraph, the paragraph computed by
`extractParagraphWithSelection` is the maximal double-newline-delimited
block containing the selection, and the returned `paragraphWithSelection`
splits as `b ++ "<target>" ++ selectedText ++ "</target>" ++ a` with
`b ++ selectedText ++ a` equal to that trimmed block: removing the two
sentinels recovers the enclosing paragraph exactly. -/
theorem sentinelRoundtrip (fullText : List Char) (selStart selEnd : Nat)
    (h1 : selStart < selEnd) (h2 : selEnd ≤ fullText.length)
    (hnc : NoCrossDoubleNL fullText selStart selEnd)
    (hfound : firstIdxOf (codeParagraph fullText selStart selEnd)
        (jsSubstring fullText selStart selEnd) ≠ none) :
    IsEnclosingBlock fullText selStart selEnd (findParaStart fullText selStart)
      (findParaEnd fullText selEnd) ∧
    ∃ b a,
      (extractParagraphWithSelection fullText selStart selEnd).paragraphWithSelection
        = b ++ ("<target>").toList ++ jsSubstring fullText selStart selEnd
            ++ ("</target>").toList ++ a ∧
      b ++ jsSubstring fullText selStart selEnd ++ a
        = jsTrim (jsSubstring fullText (findParaStart fullText selStart)
            (findParaEnd fullText selEnd)) := by
  obtain ⟨hge, hcondE, hleLen, hminE⟩ := findParaEnd_props fullText selEnd h2
  constructor
  · refine ⟨findParaStart_le fullText selStart, hge,
      hleLen, findParaStart_cond fullText selStart, hcondE,
      findParaStart_max fullText selStart, hminE, ?_⟩
    intro i hiS hiE hd
    by_cases hA : i + 2 ≤ selStart
    · have hc : paraStartCond fullText (i + 2) := by
        right
        refine ⟨by omega, ?_⟩
        have he : i + 2 - 2 = i := by omega
        rw [he]
        exact hd
      have := findParaStart_max fullText selStart (i + 2) hA hc
      have hle := hiS
      omega
    · by_cases hB : selEnd ≤ i
      · have := hminE i hB (Or.inr hd)
        omega
      · exact hnc i (by omega) (by omega) hd
  · cases hidx : firstIdxOf (codeParagraph fullText selStart selEnd)
      (jsSubstring fullText selStart selEnd) with
    | none => exact absurd hidx hfound
    | some idx =>
      obtain ⟨hdecomp, hle⟩ := firstIdxOf_decomp hidx
      refine ⟨(codeParagraph fullText selStart selEnd).take idx,
        (codeParagraph fullText selStart selEnd).drop
          (idx + (jsSubstring fullText selStart selEnd).length), ?_, ?_⟩
      · unfold extractParagraphWithSelection
        dsimp only
        rw [hidx]
        dsimp only
        rw [jsSubstring_take (le_trans (Nat.le_add_right idx _) hle),
          jsSubstring_drop hle]
      · exact hdecomp.symm

theorem sentinelRoundtrip_witness :
    ∃ b a,
      (extractParagraphWithSelection (("aa\n\nbb cc\n\ndd").toList) 4 6).paragraphWithSelection
        = b ++ ("<target>").toList ++ jsSubstring (("aa\n\nbb cc\n\ndd").toList) 4 6
            ++ ("</target>").toList ++ a ∧
      b ++ jsSubstring (("aa\n\nbb cc\n\ndd").toList) 4 6 ++ a
        = jsTrim (jsSubstring (("aa\n\nbb cc\n\ndd").toList)
            (findParaStart (("aa\n\nbb cc\n\ndd").toList) 4)
            (findParaEnd (("aa\n\nbb cc\n\ndd").toList) 6)) :=
  (sentinelRoundtrip (("aa\n\nbb cc\n\ndd").toList) 4 6 (by decide) (by decide)
    (by decide) (by decide)).2

/-!
## Plain-text import normalization (`src/lib/content-converters.ts`)

`plainTextToTiptapJson` and `plainTextToHtml` split the input on `'\n'`
and emit one block per line; a line whose trimmed content is empty
becomes an empty paragraph block.
-/

inductive TiptapNode where
  | text (text : List Char)
  | paragraph (content : List TiptapNode)
  | doc (content : List TiptapNode)

/-- The per-line mapping of `plainTextToTiptapJson`:
`{ type: 'paragraph', content: line.trim() ? [{ type: 'text', text: line }] : [] }`. -/
def plainTextLineBlock (line : List Char) : TiptapNode :=
  TiptapNode.paragraph
    (if jsTrim line ≠ [] then [TiptapNode.text line] else [])

/-- Model of `plainTextToTiptapJson`: split on `'\n'`, one paragraph per
line. -/
def plainTextToTiptapJson (text : List Char) : TiptapNode :=
  TiptapNode.doc ((text.splitOn '\n').map plainTextLineBlock)

/-- The per-line mapping of `plainTextToHtml`:
`trimmed ? `<p>${trimmed}</p>` : '<p></p>'`. -/
def plainTextLineHtml (line : List Char) : List Char :=
  if jsTrim line ≠ [] then ("<p>").toList ++ jsTrim line ++ ("</p>").toList
  else ("<p></p>").toList

/-- Model of `plainTextToHtml`: split on `'\n'`, one `<p>` per line,
joined with `'\n'`. -/
def plainTextToHtml (text : List Char) : List Char :=
  List.intercalate (['\n']) ((text.splitOn '\n').map plainTextLineHtml)

/-- Claim C8 (Plain-text import normalization): both converters produce
exactly one block per `'\n'`-separated line; a line whose trimmed content
is empty becomes an empty block (never collapsed or omitted); and the
3-line input `"Title"`, `""`, `"Body text"` yields exactly 3 blocks with
the middle one empty. -/
theorem plainTextImportNormalization :
    (∀ t : List Char, plainTextToTiptapJson t
      = TiptapNode.doc ((t.splitOn '\n').map plainTextLineBlock)) ∧
    (∀ t : List Char, ((t.splitOn '\n').map plainTextLineBlock).length
      = (t.splitOn '\n').length) ∧
    (∀ line, jsTrim line = [] →
      plainTextLineBlock line = TiptapNode.paragraph []) ∧
    (∀ line, jsTrim line ≠ [] →
      plainTextLineBlock line = TiptapNode.paragraph [TiptapNode.text line]) ∧
    (∀ t : List Char, plainTextToHtml t
      = List.intercalate (['\n']) ((t.splitOn '\n').map plainTextLineHtml)) ∧
    (∀ line, jsTrim line = [] → plainTextLineHtml line = ("<p></p>").toList) ∧
    plainTextToTiptapJson (("Title\n\nBody text").toList)
      = TiptapNode.doc
          [TiptapNode.paragraph [TiptapNode.text (("Title").toList)],
           TiptapNode.paragraph [],
           TiptapNode.paragraph [TiptapNode.text (("Body text").toList)]] ∧
    plainTextToHtml (("Title\n\nBody text").toList)
      = ("<p>Title</p>\n<p></p>\n<p>Body text</p>").toList := by
  refine ⟨fun t => rfl, fun t => by rw [List.length_map], ?_, ?_,
    fun t => rfl, ?_, rfl, rfl⟩
  · intro line h
    unfold plainTextLineBlock
    rw [if_neg (by simp [h])]
  · intro line h
    unfold plainTextLineBlock
    rw [if_pos h]
  · intro line h
    unfold plainTextLineHtml
    rw [if_neg (by simp [h])]

theorem plainTextImportNormalization_witness :
    plainTextLineBlock [] = TiptapNode.paragraph [] ∧
    plainTextLineBlock (("x").toList)
      = TiptapNode.paragraph [TiptapNode.text (("x").toList)] :=
  ⟨plainTextImportNormalization.2.2.1 [] rfl,
   plainTextImportNormalization.2.2.2.1 (("x").toList) (by decide)⟩

/-!
## Wiki-fetch error mapping (`api/confluence-fetch.ts`)

On a non-OK upstream response the handler returns 401 with
"Authentication failed. Check your Confluence credentials.", 404 with
"Page not found. Check the Confluence URL.", and otherwise propagates the
upstream status with `Confluence API error: ${statusText}`.
-/

structure ApiJsonResponse where
  status : Nat
  error : List Char
deriving DecidableEq

/-- The `!response.ok` branch of the confluence-fetch handler. -/
def confluenceUpstreamFailure (status : Nat) (statusText : List Char) :
    ApiJsonResponse :=
  if status = 401 then
    ⟨401, ("Authentication failed. Check your Confluence credentials.").toList⟩
  else if status = 404 then
    ⟨404, ("Page not found. Check the Confluence URL.").toList⟩
  else
    ⟨status, ("Confluence API error: ").toList ++ statusText⟩

/-- The handler's dispatch on the upstream response: `response.ok` means
a 2xx status; otherwise the error mapping above runs. -/
def confluenceFetchDispatch (status : Nat) (statusText : List Char)
    (success : ApiJsonResponse) : ApiJsonResponse :=
  if 200 ≤ status ∧ status < 300 then success
  else confluenceUpstreamFailure status statusText

/-- Claim C9 (Wiki-fetch error mapping): for every non-2xx upstream
status, 401 maps to a 401 response whose message contains
"Authentication failed", 404 to a 404 response whose message contains
"not found", and any other status is propagated with the generic
`Confluence API error:` message. -/
theorem confluenceErrorMapping (status : Nat) (statusText : List Char)
    (success : ApiJsonResponse) (hnok : ¬ (200 ≤ status ∧ status < 300)) :
    (status = 401 →
      (confluenceFetchDispatch status statusText success).status = 401 ∧
      ("Authentication failed").toList <:+:
        (confluenceFetchDispatch status statusText success).error) ∧
    (status = 404 →
      (confluenceFetchDispatch status statusText success).status = 404 ∧
      ("not found").toList <:+:
        (confluenceFetchDispatch status statusText success).error) ∧
    (status ≠ 401 → status ≠ 404 →
      confluenceFetchDispatch status statusText success
        = ⟨status, ("Confluence API error: ").toList ++ statusText⟩) := by
  unfold confluenceFetchDispatch confluenceUpstreamFailure
  rw [if_neg hnok]
  refine ⟨?_, ?_, ?_⟩
  · intro h
    subst h
    rw [if_pos rfl]
    exact ⟨rfl, by decide⟩
  · intro h
    subst h
    rw [if_neg (by decide), if_pos rfl]
    exact ⟨rfl, by decide⟩
  · intro h1 h4
    rw [if_neg h1, if_neg h4]

theorem confluenceErrorMapping_witness :
    (confluenceFetchDispatch 401 (("Unauthorized").toList) ⟨200, []⟩).status = 401 ∧
    (confluenceFetchDispatch 404 (("Not Found").toList) ⟨200, []⟩).status = 404 ∧
    confluenceFetchDispatch 500 (("Internal Server Error").toList) ⟨200, []⟩
      = ⟨500, ("Confluence API error: Internal Server Error").toList⟩ :=
  ⟨((confluenceErrorMapping 401 (("Unauthorized").toList) ⟨200, []⟩
      (by decide)).1 rfl).1,
   ((confluenceErrorMapping 404 (("Not Found").toList) ⟨200, []⟩
      (by decide)).2.1 rfl).1,
   by
    rw [(confluenceErrorMapping 500 (("Internal Server Error").toList) ⟨200, []⟩
      (by decide)).2.2 (by decide) (by decide)]
    decide⟩

/-!
## Document store (`src/store/documentStore.ts`)

The Zustand store holds `documents`, `currentDocument`,
`enhancementHistory` and `isLoading`.  `updateDocument` merges a
`Partial<Document>` into the matching list entry (and into
`currentDocument` when its id matches); `removeDocument` filters the list
by id and nulls `currentDocument` when its id matches.
-/

structure StyleGuide where
  tone : List Char
  vocabulary : List (List Char)
  perspective : List Char
  technicalLevel : List Char
  commonPatterns : List (List Char)

structure DocumentMetadata where
  summary : List Char
  styleGuide : StyleGuide
  keyTerms : List (List Char)
  documentType : List Char

structure Document where
  id : List Char
  name : List Char
  confluenceUrl : List Char
  content : TiptapNode
  metadata : Option DocumentMetadata
  createdAt : List Char
  updatedAt : List Char

structure EnhancementRecord where
  id : List Char
  documentId : List Char
  originalContent : TiptapNode
  enhancedContent : TiptapNode
  instructions : List Char
  createdAt : List Char

/-- A `Partial<Document>`: each field optionally present. -/
structure DocumentUpdates where
  id : Option (List Char)
  name : Option (List Char)
  confluenceUrl : Option (List Char)
  content : Option TiptapNode
  metadata : Option (Option DocumentMetadata)
  createdAt : Option (List Char)
  updatedAt : Option (List Char)

/-- The JS spread `{ ...doc, ...updates }`: fields present in `updates`
override those of `doc`. -/
def applyUpdates (doc : Document) (u : DocumentUpdates) : Document :=
  { id := u.id.getD doc.id
    name := u.name.getD doc.name
    confluenceUrl := u.confluenceUrl.getD doc.confluenceUrl
    content := u.content.getD doc.content
    metadata := u.metadata.getD doc.metadata
    createdAt := u.createdAt.getD doc.createdAt
    updatedAt := u.updatedAt.getD doc.updatedAt }

structure StoreState where
  documents : List Document
  currentDocument : Option Document
  enhancementHistory : List EnhancementRecord
  isLoading : Bool

/-- Model of the store's `updateDocument` action. -/
def updateDocument (id : List Char) (updates : DocumentUpdates)
    (s : StoreState) : StoreState :=
  { s with
    documents := s.documents.map
      (fun doc => if doc.id = id then applyUpdates doc updates else doc)
    currentDocument :=
      match s.currentDocument with
      | some c => if c.id = id then some (applyUpdates c updates) else some c
      | none => none }

/-- Model of the store's `removeDocument` action. -/
def removeDocument (id : List Char) (s : StoreState) : StoreState :=
  { s with
    documents := s.documents.filter (fun doc => doc.id ≠ id)
    currentDocument :=
      match s.currentDocument with
      | some c => if c.id = id then none else some c
      | none => none }

/-- Claim C10 (Document-store frame effect): `removeDocument id` removes
exactly the documents with that id (the remaining list is a sublist of
the original), nulls `currentDocument` iff it was non-null with that id,
and leaves `enhancementHistory` and `isLoading` unchanged;
`updateDocument id u` merges `u` into exactly the matching entries (and
into `currentDocument` when its id matches), preserving the length and
every document with another id, and leaves `enhancementHistory` and
`isLoading` unchanged. -/
theorem documentStoreFrame (s : StoreState) (id : List Char)
    (u : DocumentUpdates) :
    (∀ d, d ∈ (removeDocument id s).documents ↔ d ∈ s.documents ∧ d.id ≠ id) ∧
    (removeDocument id s).documents.Sublist s.documents ∧
    (∀ c, s.currentDocument = some c → c.id = id →
      (removeDocument id s).currentDocument = none) ∧
    (∀ c, s.currentDocument = some c → c.id ≠ id →
      (removeDocument id s).currentDocument = some c) ∧
    (s.currentDocument = none → (removeDocument id s).currentDocument = none) ∧
    (removeDocument id s).enhancementHistory = s.enhancementHistory ∧
    (removeDocument id s).isLoading = s.isLoading ∧
    (updateDocument id u s).documents.length = s.documents.length ∧
    (∀ i : Nat, (updateDocument id u s).documents.get? i
      = (s.documents.get? i).map
          (fun d => if d.id = id then applyUpdates d u else d)) ∧
    (∀ i d, s.documents.get? i = some d → d.id ≠ id →
      (updateDocument id u s).documents.get? i = some d) ∧
    (∀ i d, s.documents.get? i = some d → d.id = id →
      (updateDocument id u s).documents.get? i = some (applyUpdates d u)) ∧
    (∀ c, s.currentDocument = some c → c.id = id →
      (updateDocument id u s).currentDocument = some (applyUpdates c u)) ∧
    (∀ c, s.currentDocument = some c → c.id ≠ id →
      (updateDocument id u s).currentDocument = some c) ∧
    (updateDocument id u s).enhancementHistory = s.enhancementHistory ∧
    (updateDocument id u s).isLoading = s.isLoading := by
  have hget : ∀ i : Nat, (updateDocument id u s).documents.get? i
      = (s.documents.get? i).map
          (fun d => if d.id = id then applyUpdates d u else d) := by
    intro i
    unfold updateDocument
    exact List.get?_map _ _ _
  refine ⟨?_, ?_, ?_, ?_, ?_, rfl, rfl, ?_, hget, ?_, ?_, ?_, ?_, rfl, rfl⟩
  · intro d
    unfold removeDocument
    simp [List.mem_filter]
  · unfold removeDocument
    exact List.filter_sublist _
  · intro c hc hid
    unfold removeDocument
    rw [hc]
    simp [hid]
  · intro c hc hid
    unfold removeDocument
    rw [hc]
    simp [hid]
  · intro hc
    unfold removeDocument
    rw [hc]
  · unfold updateDocument
    exact List.length_map _ _
  · intro i d hd hid
    rw [hget i, hd]
    simp [hid]
  · intro i d hd hid
    rw [hget i, hd]
    simp [hid]
  · intro c hc hid
    unfold updateDocument
    rw [hc]
    simp [hid]
  · intro c hc hid
    unfold updateDocument
    rw [hc]
    simp [hid]

def sampleDoc1 : Document :=
  ⟨("1").toList, ("alpha").toList, ("url1").toList, TiptapNode.doc [], none,
    ("t0").toList, ("t0").toList⟩

def sampleDoc2 : Document :=
  ⟨("2").toList, ("beta").toList, ("url2").toList, TiptapNode.doc [], none,
    ("t0").toList, ("t0").toList⟩

def sampleStore : StoreState := ⟨[sampleDoc1, sampleDoc2], some sampleDoc1, [], false⟩

def sampleUpdates : DocumentUpdates :=
  ⟨none, some (("gamma").toList), none, none, none, none, some (("t1").toList)⟩

theorem documentStoreFrame_witness :
    (removeDocument (("1").toList) sampleStore).currentDocument = none ∧
    (removeDocument (("2").toList) sampleStore).currentDocument = some sampleDoc1 ∧
    sampleDoc2 ∈ (removeDocument (("1").toList) sampleStore).documents ∧
    (updateDocument (("1").toList) sampleUpdates sampleStore).currentDocument
      = some (applyUpdates sampleDoc1 sampleUpdates) ∧
    (updateDocument (("1").toList) sampleUpdates sampleStore).documents.get? 1
      = some sampleDoc2 :=
  ⟨(documentStoreFrame sampleStore (("1").toList) sampleUpdates).2.2.1
      sampleDoc1 rfl rfl,
   (documentStoreFrame sampleStore (("2").toList) sampleUpdates).2.2.2.1
      sampleDoc1 rfl (by decide),
   ((documentStoreFrame sampleStore (("1").toList) sampleUpdates).1
      sampleDoc2).mpr ⟨List.mem_cons_of_mem _ (List.mem_cons_self _ _), by decide⟩,
   (documentStoreFrame sampleStore (("1").toList) sampleUpdates).2.2.2.2.2.2.2.2.2.2.2.1
      sampleDoc1 rfl rfl,
   (documentStoreFrame sampleStore (("1").toList) sampleUpdates).2.2.2.2.2.2.2.2.2.1
      1 sampleDoc2 rfl (by decide)⟩

/-!
## Image-placeholder reconciliation (`api/pdf-to-html.ts`)

After the AI returns HTML, the handler replaces every occurrence of
`{{IMAGE_i}}` (for each actually-extracted image `i`) by an `<img>` tag,
then strips every remaining `{{IMAGE_<digits>}}` placeholder.  We model
decimal rendering of JS numbers, global literal string replacement, and
the cleanup regex, all by structural recursion.
-/

def digitChar : Nat → Char
  | 0 => '0' | 1 => '1' | 2 => '2' | 3 => '3' | 4 => '4'
  | 5 => '5' | 6 => '6' | 7 => '7' | 8 => '8' | _ => '9'

def isDigitCh (c : Char) : Bool := '0' ≤ c && c ≤ '9'

def natDigitsAux : Nat → Nat → List Char
  | 0, _ => []
  | fuel + 1, n =>
    if n < 10 then [digitChar n]
    else natDigitsAux fuel (n / 10) ++ [digitChar (n % 10)]

/-- Canonical decimal rendering of a JS number (as interpolated by
template literals in the source). -/
def natDigits (n : Nat) : List Char := natDigitsAux (n + 1) n

theorem natDigitsAux_fuel : ∀ fuel₁ fuel₂ n, n < fuel₁ → n < fuel₂ →
    natDigitsAux fuel₁ n = natDigitsAux fuel₂ n := by
  intro fuel₁
  induction fuel₁ with
  | zero => intro fuel₂ n h1 _; omega
  | succ f ih =>
    intro fuel₂ n h1 h2
    cases fuel₂ with
    | zero => omega
    | succ f₂ =>
      unfold natDigitsAux
      by_cases hn : n < 10
      · rw [if_pos hn, if_pos hn]
      · rw [if_neg hn, if_neg hn]
        have hd : n / 10 < n := Nat.div_lt_self (by omega) (by omega)
        rw [ih f₂ (n / 10) (by omega) (by omega)]

theorem natDigits_lt10 {n : Nat} (h : n < 10) : natDigits n = [digitChar n] := by
  unfold natDigits natDigitsAux
  rw [if_pos h]

theorem natDigits_ge10 {n : Nat} (h : 10 ≤ n) :
    natDigits n = natDigits (n / 10) ++ [digitChar (n % 10)] := by
  have hd : n / 10 < n := Nat.div_lt_self (by omega) (by omega)
  show natDigitsAux (n + 1) n = natDigitsAux (n / 10 + 1) (n / 10) ++ [digitChar (n % 10)]
  rw [show natDigitsAux (n + 1) n
      = if n < 10 then [digitChar n]
        else natDigitsAux n (n / 10) ++ [digitChar (n % 10)] from rfl]
  rw [if_neg (by omega),
    natDigitsAux_fuel n (n / 10 + 1) (n / 10) (by omega) (by omega)]

theorem natDigits_ne_nil (n : Nat) : natDigits n ≠ [] := by
  by_cases h : n < 10
  · rw [natDigits_lt10 h]; simp
  · rw [natDigits_ge10 (by omega)]; simp

theorem isDigitCh_digitChar (d : Nat) : isDigitCh (digitChar d) = true := by
  unfold digitChar
  split <;> decide

theorem natDigits_digits : ∀ n, ∀ c ∈ natDigits n, isDigitCh c = true := by
  intro n
  induction n using Nat.strong_induction_on with
  | _ n ih =>
    intro c hc
    by_cases h : n < 10
    · rw [natDigits_lt10 h] at hc
      simp only [List.mem_singleton] at hc
      rw [hc]; exact isDigitCh_digitChar n
    · rw [natDigits_ge10 (by omega)] at hc
      rcases List.mem_append.mp hc with h1 | h1
      · exact ih (n / 10) (Nat.div_lt_self (by omega) (by omega)) c h1
      · simp only [List.mem_singleton] at h1
        rw [h1]; exact isDigitCh_digitChar (n % 10)

theorem digitChar_inj : ∀ a < 10, ∀ b < 10, digitChar a = digitChar b → a = b := by
  decide

theorem natDigits_inj : ∀ m n, natDigits m = natDigits n → m = n := by
  intro m
  induction m using Nat.strong_induction_on with
  | _ m ih =>
    intro n h
    by_cases hm : m < 10 <;> by_cases hn : n < 10
    · rw [natDigits_lt10 hm, natDigits_lt10 hn] at h
      exact digitChar_inj m hm n hn (List.cons.inj h).1
    · rw [natDigits_lt10 hm, @natDigits_ge10 n (by omega)] at h
      have hlen := congrArg List.length h
      simp only [List.length_singleton, List.length_append] at hlen
      have hne := natDigits_ne_nil (n / 10)
      have hpos : 1 ≤ (natDigits (n / 10)).length := by
        cases he : natDigits (n / 10) with
        | nil => exact absurd he hne
        | cons a t => simp
      omega
    · rw [@natDigits_ge10 m (by omega), natDigits_lt10 hn] at h
      have hlen := congrArg List.length h
      simp only [List.length_singleton, List.length_append] at hlen
      have hne := natDigits_ne_nil (m / 10)
      have hpos : 1 ≤ (natDigits (m / 10)).length := by
        cases he : natDigits (m / 10) with
        | nil => exact absurd he hne
        | cons a t => simp
      omega
    · rw [@natDigits_ge10 m (by omega), @natDigits_ge10 n (by omega)] at h
      have hlen : (natDigits (m / 10)).length = (natDigits (n / 10)).length := by
        have hl := congrArg List.length h
        simp only [List.length_append, List.length_singleton] at hl
        omega
      obtain ⟨h1, h2⟩ := List.append_inj h hlen
      have hdiv : m / 10 = n / 10 :=
        ih (m / 10) (Nat.div_lt_self (by omega) (by omega)) (n / 10) h1
      have hmod : m % 10 = n % 10 :=
        digitChar_inj (m % 10) (Nat.mod_lt m (by omega)) (n % 10)
          (Nat.mod_lt n (by omega)) (List.cons.inj h2).1
      omega

theorem isDigitCh_ne_rbrace {c : Char} (h : isDigitCh c = true) : c ≠ '\x7d' := by
  intro he
  rw [he] at h
  exact absurd h (by decide)

theorem isDigitCh_ne_lbrace {c : Char} (h : isDigitCh c = true) : c ≠ '\x7b' := by
  intro he
  rw [he] at h
  exact absurd h (by decide)

/-- The placeholder token `{{IMAGE_n}}` with canonical decimal index. -/
def placeholder (n : Nat) : List Char :=
  ("\x7b\x7bIMAGE_").toList ++ natDigits n ++ ("\x7d\x7d").toList

theorem digits_then_rbrace_not_pre :
    ∀ a b x y : List Char, (∀ c ∈ a, c ≠ '\x7d') → (∀ c ∈ b, c ≠ '\x7d') →
      a ≠ b → ¬ (a ++ '\x7d' :: x) <+: (b ++ '\x7d' :: y) := by
  intro a
  induction a with
  | nil =>
    intro b x y _ hb hne hp
    cases b with
    | nil => exact hne rfl
    | cons d bt =>
      rw [List.nil_append] at hp
      have hd := (List.cons_prefix_cons.mp hp).1
      exact hb d (List.mem_cons_self d bt) hd.symm
  | cons c at' ih =>
    intro b x y ha hb hne hp
    cases b with
    | nil =>
      rw [List.nil_append] at hp
      rw [show (c :: at') ++ '\x7d' :: x = c :: (at' ++ '\x7d' :: x) from rfl]
        at hp
      have hd := (List.cons_prefix_cons.mp hp).1
      exact ha c (List.mem_cons_self c at') hd
    | cons d bt =>
      rw [show (c :: at') ++ '\x7d' :: x = c :: (at' ++ '\x7d' :: x) from rfl,
        show (d :: bt) ++ '\x7d' :: y = d :: (bt ++ '\x7d' :: y) from rfl] at hp
      obtain ⟨hcd, hp'⟩ := List.cons_prefix_cons.mp hp
      exact ih bt x y (fun e he => ha e (List.mem_cons_of_mem c he))
        (fun e he => hb e (List.mem_cons_of_mem d he))
        (fun hab => hne (by rw [hcd, hab])) hp'

theorem placeholder_eq (n : Nat) :
    placeholder n
      = '\x7b' :: '\x7b' :: (("IMAGE_").toList ++ natDigits n
          ++ ("\x7d\x7d").toList) := by
  unfold placeholder
  rfl

theorem placeholder_ne_nil (n : Nat) : placeholder n ≠ [] := by
  rw [placeholder_eq]; simp

theorem placeholder_head (n : Nat) : (placeholder n).head? = some '\x7b' := by
  rw [placeholder_eq]; rfl

theorem placeholder_not_pre_of_ne {i j : Nat} (hne : i ≠ j) (r : List Char) :
    ¬ placeholder i <+: placeholder j ++ r := by
  intro hp
  rw [placeholder_eq, placeholder_eq] at hp
  rw [show ('\x7b' :: '\x7b' :: (("IMAGE_").toList ++ natDigits j
      ++ ("\x7d\x7d").toList)) ++ r
    = '\x7b' :: '\x7b' :: (("IMAGE_").toList ++ natDigits j
      ++ ("\x7d\x7d").toList ++ r) from by simp [List.append_assoc]] at hp
  have hp1 := (List.cons_prefix_cons.mp hp).2
  have hp2 := (List.cons_prefix_cons.mp hp1).2
  rw [show ("IMAGE_").toList ++ natDigits i ++ ("\x7d\x7d").toList
      = ("IMAGE_").toList ++ (natDigits i ++ ('\x7d' :: '\x7d' :: []))
      from by simp [List.append_assoc],
    show ("IMAGE_").toList ++ natDigits j ++ ("\x7d\x7d").toList ++ r
      = ("IMAGE_").toList ++ (natDigits j ++ ('\x7d' :: '\x7d' :: r))
      from by simp [List.append_assoc]] at hp2
  have hp3 := (List.prefix_append_right_inj (("IMAGE_").toList)).mp hp2
  exact digits_then_rbrace_not_pre (natDigits i) (natDigits j)
    ('\x7d' :: []) ('\x7d' :: r)
    (fun c hc => isDigitCh_ne_rbrace (natDigits_digits i c hc))
    (fun c hc => isDigitCh_ne_rbrace (natDigits_digits j c hc))
    (fun hd => hne (natDigits_inj i j hd)) hp3

/-- JS `String.prototype.replace(new RegExp(lit, 'g'), repl)` for a
literal (regex-special-free) pattern: left-to-right, non-overlapping,
the replacement itself is not rescanned.  Implemented with a fuel
parameter (initially the string length) to keep the recursion
structural. -/
def replaceAllAux (pat repl : List Char) : Nat → List Char → List Char
  | _, [] => []
  | 0, s => s
  | fuel + 1, c :: t =>
    if pat ≠ [] ∧ pat.isPrefixOf (c :: t) = true then
      repl ++ replaceAllAux pat repl fuel ((c :: t).drop pat.length)
    else
      c :: replaceAllAux pat repl fuel t

def replaceAll (s pat repl : List Char) : List Char :=
  replaceAllAux pat repl s.length s

theorem replaceAllAux_fuel (pat repl : List Char) :
    ∀ fuel₁ fuel₂ s, s.length ≤ fuel₁ → s.length ≤ fuel₂ →
      replaceAllAux pat repl fuel₁ s = replaceAllAux pat repl fuel₂ s := by
  intro fuel₁
  induction fuel₁ with
  | zero =>
    intro fuel₂ s h1 _
    have hs : s = [] := List.length_eq_zero.mp (by omega)
    subst hs
    cases fuel₂ <;> rfl
  | succ f ih =>
    intro fuel₂ s h1 h2
    cases s with
    | nil => cases fuel₂ <;> rfl
    | cons c t =>
      cases fuel₂ with
      | zero => simp at h2
      | succ f₂ =>
        show (if pat ≠ [] ∧ pat.isPrefixOf (c :: t) = true then
            repl ++ replaceAllAux pat repl f ((c :: t).drop pat.length)
          else c :: replaceAllAux pat repl f t)
          = (if pat ≠ [] ∧ pat.isPrefixOf (c :: t) = true then
            repl ++ replaceAllAux pat repl f₂ ((c :: t).drop pat.length)
          else c :: replaceAllAux pat repl f₂ t)
        by_cases hc : pat ≠ [] ∧ pat.isPrefixOf (c :: t) = true
        · rw [if_pos hc, if_pos hc]
          have hplen : 1 ≤ pat.length := by
            cases hp : pat with
            | nil => exact absurd hp hc.1
            | cons a u => simp
          have hdl : ((c :: t).drop pat.length).length ≤ f := by
            rw [List.length_drop]
            simp only [List.length_cons] at h1 ⊢
            omega
          have hdl₂ : ((c :: t).drop pat.length).length ≤ f₂ := by
            rw [List.length_drop]
            simp only [List.length_cons] at h2 ⊢
            omega
          rw [ih f₂ _ hdl hdl₂]
        · rw [if_neg hc, if_neg hc]
          have ht : t.length ≤ f := by
            simp only [List.length_cons] at h1; omega
          have ht₂ : t.length ≤ f₂ := by
            simp only [List.length_cons] at h2; omega
          rw [ih f₂ t ht ht₂]

theorem replaceAll_nil (pat repl : List Char) : replaceAll [] pat repl = [] := rfl

theorem replaceAll_cons_pos {pat : List Char} (repl : List Char) {c : Char}
    {t : List Char} (hne : pat ≠ []) (hp : pat.isPrefixOf (c :: t) = true) :
    replaceAll (c :: t) pat repl
      = repl ++ replaceAll ((c :: t).drop pat.length) pat repl := by
  show replaceAllAux pat repl (t.length + 1) (c :: t) = _
  rw [show replaceAllAux pat repl (t.length + 1) (c :: t)
      = if pat ≠ [] ∧ pat.isPrefixOf (c :: t) = true then
          repl ++ replaceAllAux pat repl t.length ((c :: t).drop pat.length)
        else c :: replaceAllAux pat repl t.length t from rfl]
  rw [if_pos ⟨hne, hp⟩]
  have hplen : 1 ≤ pat.length := by
    cases hq : pat with
    | nil => exact absurd hq hne
    | cons a u => simp
  unfold replaceAll
  rw [replaceAllAux_fuel pat repl t.length ((c :: t).drop pat.length).length _
    (by rw [List.length_drop]; simp only [List.length_cons]; omega) (le_refl _)]

theorem replaceAll_cons_neg {pat : List Char} (repl : List Char) {c : Char}
    {t : List Char} (hn : ¬ (pat ≠ [] ∧ pat.isPrefixOf (c :: t) = true)) :
    replaceAll (c :: t) pat repl = c :: replaceAll t pat repl := by
  show replaceAllAux pat repl (t.length + 1) (c :: t) = _
  rw [show replaceAllAux pat repl (t.length + 1) (c :: t)
      = if pat ≠ [] ∧ pat.isPrefixOf (c :: t) = true then
          repl ++ replaceAllAux pat repl t.length ((c :: t).drop pat.length)
        else c :: replaceAllAux pat repl t.length t from rfl]
  rw [if_neg hn]
  rfl

theorem replaceAll_chunk_skip {pat : List Char} (repl : List Char)
    (hpat : pat.head? = some '\x7b') :
    ∀ c r : List Char, '\x7b' ∉ c →
      replaceAll (c ++ r) pat repl = c ++ replaceAll r pat repl := by
  intro c
  induction c with
  | nil => intro r _; rw [List.nil_append, List.nil_append]
  | cons a ct ih =>
    intro r hbr
    have hna : a ≠ '\x7b' := fun h => hbr (h ▸ List.mem_cons_self a ct)
    have hnp : ¬ (pat ≠ [] ∧ pat.isPrefixOf (a :: (ct ++ r)) = true) := by
      rintro ⟨h1, h2⟩
      cases hq : pat with
      | nil => exact h1 hq
      | cons p pt =>
        rw [hq] at hpat h2
        have hpv : p = '\x7b' := by
          simpa using hpat
        have := (List.cons_prefix_cons.mp (isPrefixOf_iff_isPre.mp h2)).1
        exact hna (by rw [← this, hpv])
    rw [show (a :: ct) ++ r = a :: (ct ++ r) from rfl,
      replaceAll_cons_neg repl hnp,
      ih r (fun h => hbr (List.mem_cons_of_mem a h))]
    rfl

theorem replaceAll_head_match {pat : List Char} (repl r : List Char)
    (hne : pat ≠ []) :
    replaceAll (pat ++ r) pat repl = repl ++ replaceAll r pat repl := by
  cases hq : pat with
  | nil => exact absurd hq hne
  | cons p pt =>
    rw [show (p :: pt) ++ r = p :: (pt ++ r) from rfl]
    rw [replaceAll_cons_pos repl (by simp)
      (isPrefixOf_iff_isPre.mpr (by rw [show p :: (pt ++ r) = (p :: pt) ++ r from rfl]; exact List.prefix_append _ _))]
    congr 1
    rw [show p :: (pt ++ r) = (p :: pt) ++ r from rfl,
      show (p :: pt).length = (p :: pt).length from rfl, List.drop_left]

/-- Innards of a placeholder token after its two opening braces. -/
def placeholderTail (n : Nat) : List Char :=
  ("IMAGE_").toList ++ natDigits n ++ ("\x7d\x7d").toList

theorem placeholderTail_no_lbrace (n : Nat) : '\x7b' ∉ placeholderTail n := by
  unfold placeholderTail
  intro h
  rcases List.mem_append.mp h with h1 | h1
  · rcases List.mem_append.mp h1 with h2 | h2
    · exact absurd h2 (by decide)
    · exact isDigitCh_ne_lbrace (natDigits_digits n _ h2) rfl
  · exact absurd h1 (by decide)

theorem placeholderTail_head (n : Nat) :
    placeholderTail n = 'I' :: (("MAGE_").toList ++ natDigits n
      ++ ("\x7d\x7d").toList) := by
  unfold placeholderTail
  rfl

theorem replaceAll_ph_skip {i j : Nat} (hne : j ≠ i) (repl r : List Char) :
    replaceAll (placeholder j ++ r) (placeholder i) repl
      = placeholder j ++ replaceAll r (placeholder i) repl := by
  have hshape : placeholder j ++ r
      = '\x7b' :: '\x7b' :: (placeholderTail j ++ r) := by
    rw [placeholder_eq]
    rfl
  rw [hshape]
  have hn0 : ¬ (placeholder i ≠ []
      ∧ (placeholder i).isPrefixOf
          ('\x7b' :: '\x7b' :: (placeholderTail j ++ r)) = true) := by
    rintro ⟨-, h2⟩
    have hpre := isPrefixOf_iff_isPre.mp h2
    rw [show '\x7b' :: '\x7b' :: (placeholderTail j ++ r)
        = placeholder j ++ r from by rw [placeholder_eq]; rfl] at hpre
    exact placeholder_not_pre_of_ne (fun h => hne h.symm) r hpre
  rw [replaceAll_cons_neg repl hn0]
  have hn1 : ¬ (placeholder i ≠ []
      ∧ (placeholder i).isPrefixOf
          ('\x7b' :: (placeholderTail j ++ r)) = true) := by
    rintro ⟨-, h2⟩
    have hpre := isPrefixOf_iff_isPre.mp h2
    rw [placeholder_eq] at hpre
    have h3 := (List.cons_prefix_cons.mp hpre).2
    rw [placeholderTail_head,
      show ('I' :: (("MAGE_").toList ++ natDigits j ++ ("\x7d\x7d").toList)) ++ r
        = 'I' :: ((("MAGE_").toList ++ natDigits j ++ ("\x7d\x7d").toList) ++ r)
        from rfl] at h3
    have h4 := (List.cons_prefix_cons.mp h3).1
    exact absurd h4 (by decide)
  rw [replaceAll_cons_neg repl hn1]
  rw [replaceAll_chunk_skip repl (placeholder_head i) (placeholderTail j) r
    (placeholderTail_no_lbrace j)]
  rw [placeholder_eq]
  unfold placeholderTail
  rfl

/-!
### Segment decomposition

Well-formed model-output HTML is a concatenation of brace-free chunks and
placeholder tokens; substitution and cleanup act segment-wise.
-/

inductive Seg where
  | chunk (content : List Char)
  | ph (index : Nat)

def renderSeg : Seg → List Char
  | Seg.chunk c => c
  | Seg.ph n => placeholder n

def renderSegs (segs : List Seg) : List Char := (segs.map renderSeg).join

def segWf : Seg → Prop
  | Seg.chunk c => '\x7b' ∉ c
  | Seg.ph _ => True

instance (sg : Seg) : Decidable (segWf sg) := by
  cases sg <;> (unfold segWf; infer_instance)

theorem renderSegs_cons (sg : Seg) (rest : List Seg) :
    renderSegs (sg :: rest) = renderSeg sg ++ renderSegs rest := rfl

def substSeg (i : Nat) (tag : List Char) : Seg → Seg
  | Seg.ph n => if n = i then Seg.chunk tag else Seg.ph n
  | Seg.chunk c => Seg.chunk c

theorem replaceAll_render (i : Nat) (tag : List Char) :
    ∀ segs : List Seg, (∀ sg ∈ segs, segWf sg) →
      replaceAll (renderSegs segs) (placeholder i) tag
        = renderSegs (segs.map (substSeg i tag)) := by
  intro segs
  induction segs with
  | nil => intro _; rfl
  | cons sg rest ih =>
    intro hwf
    have hwfr : ∀ s ∈ rest, segWf s := fun s hs => hwf s (List.mem_cons_of_mem sg hs)
    cases sg with
    | chunk c =>
      rw [renderSegs_cons]
      show replaceAll (c ++ renderSegs rest) (placeholder i) tag = _
      rw [replaceAll_chunk_skip tag (placeholder_head i) c (renderSegs rest)
        (hwf (Seg.chunk c) (List.mem_cons_self _ _)),
        ih hwfr, List.map_cons, renderSegs_cons]
      rfl
    | ph n =>
      rw [renderSegs_cons]
      show replaceAll (placeholder n ++ renderSegs rest) (placeholder i) tag = _
      by_cases hn : n = i
      · subst hn
        rw [replaceAll_head_match tag (renderSegs rest) (placeholder_ne_nil n),
          ih hwfr, List.map_cons, renderSegs_cons]
        have hs : substSeg n tag (Seg.ph n) = Seg.chunk tag := by
          simp [substSeg]
        rw [hs]
        rfl
      · rw [replaceAll_ph_skip hn tag (renderSegs rest), ih hwfr,
          List.map_cons, renderSegs_cons]
        have hs : substSeg i tag (Seg.ph n) = Seg.ph n := by
          simp [substSeg, hn]
        rw [hs]
        rfl

theorem takeWhile_all_stop {p : Char → Bool} :
    ∀ (a : List Char) (h : Char) (z : List Char),
      (∀ x ∈ a, p x = true) → p h = false →
      (a ++ h :: z).takeWhile p = a := by
  intro a
  induction a with
  | nil =>
    intro h z _ hh
    rw [List.nil_append, List.takeWhile_cons, hh]
    rfl
  | cons x xs ih =>
    intro h z ha hh
    rw [show (x :: xs) ++ h :: z = x :: (xs ++ h :: z) from rfl,
      List.takeWhile_cons, ha x (List.mem_cons_self x xs)]
    rw [ih h z (fun e he => ha e (List.mem_cons_of_mem x he)) hh]
    rfl

/-- One attempted match of the cleanup regex `\{\{IMAGE_\d+\}\}` at the
head of `s`: the literal `{{IMAGE_`, then a non-empty greedy digit run,
then `}}`; returns the remainder after the match. -/
def matchPh (s : List Char) : Option (List Char) :=
  if ("\x7b\x7bIMAGE_").toList.isPrefixOf s = true then
    let rest := s.drop 8
    let ds := rest.takeWhile isDigitCh
    if ds ≠ [] ∧ ("\x7d\x7d").toList.isPrefixOf (rest.drop ds.length) = true then
      some ((rest.drop ds.length).drop 2)
    else none
  else none

/-- JS `htmlContent.replace(/\{\{IMAGE_\d+\}\}/g, '')`: left-to-right
scan removing every placeholder-shaped token. -/
def stripAux : Nat → List Char → List Char
  | _, [] => []
  | 0, s => s
  | fuel + 1, c :: t =>
    match matchPh (c :: t) with
    | some rem => stripAux fuel rem
    | none => c :: stripAux fuel t

def stripPlaceholders (s : List Char) : List Char := stripAux s.length s

theorem matchPh_some_length {s rem : List Char} (h : matchPh s = some rem) :
    rem.length + 11 ≤ s.length := by
  unfold matchPh at h
  split at h
  · rename_i h8
    dsimp only at h
    split at h
    · rename_i hcond
      obtain ⟨hds, hbr⟩ := hcond
      cases h
      have h8len : 8 ≤ s.length := by
        have := (isPrefixOf_iff_isPre.mp h8).length_le
        simpa using this
      have hds1 : 1 ≤ ((s.drop 8).takeWhile isDigitCh).length := by
        cases he : (s.drop 8).takeWhile isDigitCh with
        | nil => exact absurd he hds
        | cons a t => simp
      have htw : ((s.drop 8).takeWhile isDigitCh).length ≤ (s.drop 8).length :=
        (List.takeWhile_prefix _).length_le
      have hbr2 : 2 ≤ (((s.drop 8).drop
          ((s.drop 8).takeWhile isDigitCh).length)).length := by
        have := (isPrefixOf_iff_isPre.mp hbr).length_le
        simpa using this
      rw [List.length_drop, List.length_drop, List.length_drop]
      rw [List.length_drop] at htw
      rw [List.length_drop, List.length_drop] at hbr2
      omega
    · cases h
  · cases h

theorem stripAux_fuel :
    ∀ fuel₁ fuel₂ s, s.length ≤ fuel₁ → s.length ≤ fuel₂ →
      stripAux fuel₁ s = stripAux fuel₂ s := by
  intro fuel₁
  induction fuel₁ with
  | zero =>
    intro fuel₂ s h1 _
    have hs : s = [] := List.length_eq_zero.mp (by omega)
    subst hs
    cases fuel₂ <;> rfl
  | succ f ih =>
    intro fuel₂ s h1 h2
    cases s with
    | nil => cases fuel₂ <;> rfl
    | cons c t =>
      cases fuel₂ with
      | zero => simp at h2
      | succ f₂ =>
        show (match matchPh (c :: t) with
          | some rem => stripAux f rem
          | none => c :: stripAux f t)
          = (match matchPh (c :: t) with
          | some rem => stripAux f₂ rem
          | none => c :: stripAux f₂ t)
        cases hm : matchPh (c :: t) with
        | some rem =>
          dsimp only
          have hlen := matchPh_some_length hm
          simp only [List.length_cons] at h1 h2 hlen
          rw [ih f₂ rem (by omega) (by omega)]
        | none =>
          dsimp only
          simp only [List.length_cons] at h1 h2
          rw [ih f₂ t (by omega) (by omega)]

theorem strip_cons_match {c : Char} {t rem : List Char}
    (hm : matchPh (c :: t) = some rem) :
    stripPlaceholders (c :: t) = stripPlaceholders rem := by
  show stripAux (t.length + 1) (c :: t) = _
  rw [show stripAux (t.length + 1) (c :: t)
      = (match matchPh (c :: t) with
        | some rem => stripAux t.length rem
        | none => c :: stripAux t.length t) from rfl, hm]
  have hlen := matchPh_some_length hm
  simp only [List.length_cons] at hlen
  exact stripAux_fuel t.length rem.length rem (by omega) (le_refl _)

theorem strip_cons_nomatch {c : Char} {t : List Char}
    (hm : matchPh (c :: t) = none) :
    stripPlaceholders (c :: t) = c :: stripPlaceholders t := by
  show stripAux (t.length + 1) (c :: t) = _
  rw [show stripAux (t.length + 1) (c :: t)
      = (match matchPh (c :: t) with
        | some rem => stripAux t.length rem
        | none => c :: stripAux t.length t) from rfl, hm]
  rfl

theorem matchPh_none_of_head {c : Char} (t : List Char) (hc : c ≠ '\x7b') :
    matchPh (c :: t) = none := by
  unfold matchPh
  rw [if_neg]
  intro h
  have := (List.cons_prefix_cons.mp (isPrefixOf_iff_isPre.mp h)).1
  exact hc this.symm

theorem strip_chunk_skip :
    ∀ c r : List Char, '\x7b' ∉ c →
      stripPlaceholders (c ++ r) = c ++ stripPlaceholders r := by
  intro c
  induction c with
  | nil => intro r _; rw [List.nil_append, List.nil_append]
  | cons a ct ih =>
    intro r hbr
    rw [show (a :: ct) ++ r = a :: (ct ++ r) from rfl,
      strip_cons_nomatch (matchPh_none_of_head (ct ++ r)
        (fun h => hbr (h ▸ List.mem_cons_self a ct))),
      ih r (fun h => hbr (List.mem_cons_of_mem a h))]
    rfl

theorem matchPh_placeholder (n : Nat) (r : List Char) :
    matchPh (placeholder n ++ r) = some r := by
  have hshape : placeholder n ++ r
      = ("\x7b\x7bIMAGE_").toList ++ (natDigits n ++ ('\x7d' :: '\x7d' :: r)) := by
    unfold placeholder
    simp [List.append_assoc]
  rw [hshape]
  unfold matchPh
  rw [if_pos (isPrefixOf_iff_isPre.mpr (List.prefix_append _ _))]
  dsimp only
  have hdrop8 : (("\x7b\x7bIMAGE_").toList
      ++ (natDigits n ++ ('\x7d' :: '\x7d' :: r))).drop 8
      = natDigits n ++ ('\x7d' :: '\x7d' :: r) := by
    rw [show (8 : Nat) = (("\x7b\x7bIMAGE_").toList).length from rfl,
      List.drop_left]
  rw [hdrop8]
  have htw : (natDigits n ++ ('\x7d' :: '\x7d' :: r)).takeWhile isDigitCh
      = natDigits n :=
    takeWhile_all_stop (natDigits n) '\x7d' ('\x7d' :: r)
      (natDigits_digits n) (by decide)
  rw [htw]
  have hdropd : (natDigits n ++ ('\x7d' :: '\x7d' :: r)).drop (natDigits n).length
      = '\x7d' :: '\x7d' :: r := List.drop_left _ _
  rw [hdropd]
  rw [if_pos ⟨natDigits_ne_nil n,
    isPrefixOf_iff_isPre.mpr ⟨r, rfl⟩⟩]
  rfl

theorem strip_ph_skip (n : Nat) (r : List Char) :
    stripPlaceholders (placeholder n ++ r) = stripPlaceholders r := by
  have hm := matchPh_placeholder n r
  rw [placeholder_eq] at hm ⊢
  rw [show ('\x7b' :: '\x7b' :: (("IMAGE_").toList ++ natDigits n
      ++ ("\x7d\x7d").toList)) ++ r
    = '\x7b' :: ('\x7b' :: (("IMAGE_").toList ++ natDigits n
      ++ ("\x7d\x7d").toList) ++ r) from rfl] at hm ⊢
  exact strip_cons_match hm

theorem strip_render :
    ∀ segs : List Seg, (∀ sg ∈ segs, segWf sg) →
      stripPlaceholders (renderSegs segs)
        = (segs.map (fun sg => match sg with
            | Seg.chunk c => c
            | Seg.ph _ => ([] : List Char))).join := by
  intro segs
  induction segs with
  | nil => intro _; rfl
  | cons sg rest ih =>
    intro hwf
    have hwfr : ∀ s ∈ rest, segWf s :=
      fun s hs => hwf s (List.mem_cons_of_mem sg hs)
    cases sg with
    | chunk c =>
      rw [renderSegs_cons]
      show stripPlaceholders (c ++ renderSegs rest) = _
      rw [strip_chunk_skip c (renderSegs rest)
        (hwf (Seg.chunk c) (List.mem_cons_self _ _)), ih hwfr]
      rfl
    | ph n =>
      rw [renderSegs_cons]
      show stripPlaceholders (placeholder n ++ renderSegs rest) = _
      rw [strip_ph_skip n (renderSegs rest), ih hwfr]
      rfl

/-- An image extracted from the PDF (`data` is its base64 data URI). -/
structure PdfImage where
  data : List Char
  width : Nat
  height : Nat

/-- The `<img>` tag built by the handler for image `index`:
`<img src="${img.data}" alt="Image ${index + 1} from ${fileName}"
width="${img.width}" height="${img.height}" />`. -/
def mkImgTag (fileName : List Char) (index : Nat) (img : PdfImage) : List Char :=
  ("<img src=\x22").toList ++ (img.data ++ (("\x22 alt=\x22Image ").toList
    ++ (natDigits (index + 1) ++ ((" from ").toList ++ (fileName
    ++ (("\x22 width=\x22").toList ++ (natDigits img.width
    ++ (("\x22 height=\x22").toList ++ (natDigits img.height
    ++ ("\x22 />").toList)))))))))

theorem mkImgTag_no_lbrace (fileName : List Char) (idx : Nat) (img : PdfImage)
    (hdata : '\x7b' ∉ img.data) (hfn : '\x7b' ∉ fileName) :
    '\x7b' ∉ mkImgTag fileName idx img := by
  unfold mkImgTag
  intro h
  rcases List.mem_append.mp h with h | h
  · exact absurd h (by decide)
  rcases List.mem_append.mp h with h | h
  · exact hdata h
  rcases List.mem_append.mp h with h | h
  · exact absurd h (by decide)
  rcases List.mem_append.mp h with h | h
  · exact isDigitCh_ne_lbrace (natDigits_digits _ _ h) rfl
  rcases List.mem_append.mp h with h | h
  · exact absurd h (by decide)
  rcases List.mem_append.mp h with h | h
  · exact hfn h
  rcases List.mem_append.mp h with h | h
  · exact absurd h (by decide)
  rcases List.mem_append.mp h with h | h
  · exact isDigitCh_ne_lbrace (natDigits_digits _ _ h) rfl
  rcases List.mem_append.mp h with h | h
  · exact absurd h (by decide)
  rcases List.mem_append.mp h with h | h
  · exact isDigitCh_ne_lbrace (natDigits_digits _ _ h) rfl
  · exact absurd h (by decide)

/-- The handler's `extractedImages.images.forEach((img, index) => ...)`
loop: successively replace all occurrences of `{{IMAGE_index}}` by the
built `<img>` tag. -/
def substituteImagePlaceholders (fileName : List Char) :
    List Char → List PdfImage → Nat → List Char
  | html, [], _ => html
  | html, img :: rest, idx =>
    substituteImagePlaceholders fileName
      (replaceAll html (placeholder idx) (mkImgTag fileName idx img)) rest
      (idx + 1)

/-- Step 3 of the pdf-to-html handler: substitute the extracted images'
placeholders, then remove any remaining `{{IMAGE_<digits>}}`. -/
def pdfToHtmlPostprocess (text fileName : List Char)
    (images : List PdfImage) : List Char :=
  stripPlaceholders
    (if 0 < images.length then
      substituteImagePlaceholders fileName text images 0
    else text)

/-- Segment-level effect of the substitution loop. -/
def substSegs (fileName : List Char) : List PdfImage → Nat → Seg → Seg
  | [], _, sg => sg
  | img :: rest, idx, sg =>
    substSegs fileName rest (idx + 1)
      (substSeg idx (mkImgTag fileName idx img) sg)

def phResolveSeg (fileName : List Char) (imgs : List PdfImage)
    (idx n : Nat) : Seg :=
  match (if idx ≤ n then imgs.get? (n - idx) else none) with
  | some img => Seg.chunk (mkImgTag fileName n img)
  | none => Seg.ph n

theorem substSegs_chunk (fileName : List Char) :
    ∀ imgs idx c, substSegs fileName imgs idx (Seg.chunk c) = Seg.chunk c := by
  intro imgs
  induction imgs with
  | nil => intro idx c; rfl
  | cons img rest ih =>
    intro idx c
    show substSegs fileName rest (idx + 1)
      (substSeg idx (mkImgTag fileName idx img) (Seg.chunk c)) = _
    rw [show substSeg idx (mkImgTag fileName idx img) (Seg.chunk c)
      = Seg.chunk c from rfl]
    exact ih (idx + 1) c

theorem substSegs_ph (fileName : List Char) :
    ∀ imgs idx n, substSegs fileName imgs idx (Seg.ph n)
      = phResolveSeg fileName imgs idx n := by
  intro imgs
  induction imgs with
  | nil =>
    intro idx n
    unfold phResolveSeg
    by_cases h : idx ≤ n
    · rw [if_pos h]; rfl
    · rw [if_neg h]; rfl
  | cons img rest ih =>
    intro idx n
    show substSegs fileName rest (idx + 1)
      (substSeg idx (mkImgTag fileName idx img) (Seg.ph n)) = _
    by_cases hn : n = idx
    · subst hn
      rw [show substSeg n (mkImgTag fileName n img) (Seg.ph n)
        = Seg.chunk (mkImgTag fileName n img) from by simp [substSeg]]
      rw [substSegs_chunk]
      unfold phResolveSeg
      rw [if_pos (le_refl n), Nat.sub_self]
      rfl
    · rw [show substSeg idx (mkImgTag fileName idx img) (Seg.ph n)
        = Seg.ph n from by simp [substSeg, hn]]
      rw [ih (idx + 1) n]
      unfold phResolveSeg
      by_cases hle : idx ≤ n
      · rw [if_pos (by omega), if_pos hle]
        have he : n - idx = (n - (idx + 1)) + 1 := by omega
        rw [he]
        rfl
      · rw [if_neg (by omega), if_neg hle]

theorem segWf_substSeg {i : Nat} {tag : List Char} (htag : '\x7b' ∉ tag) :
    ∀ sg, segWf sg → segWf (substSeg i tag sg) := by
  intro sg hsg
  cases sg with
  | chunk c => exact hsg
  | ph n =>
    show segWf (if n = i then Seg.chunk tag else Seg.ph n)
    split
    · exact htag
    · trivial

theorem map_substSegs_nil (fileName : List Char) (idx : Nat) :
    ∀ segs : List Seg, segs.map (substSegs fileName [] idx) = segs := by
  intro segs
  induction segs with
  | nil => rfl
  | cons sg rest ih =>
    rw [List.map_cons, ih]
    rfl

theorem substImages_render (fileName : List Char) :
    ∀ (imgs : List PdfImage) (idx : Nat) (segs : List Seg),
      (∀ sg ∈ segs, segWf sg) →
      (∀ img ∈ imgs, '\x7b' ∉ img.data) → '\x7b' ∉ fileName →
      substituteImagePlaceholders fileName (renderSegs segs) imgs idx
        = renderSegs (segs.map (substSegs fileName imgs idx)) := by
  intro imgs
  induction imgs with
  | nil =>
    intro idx segs _ _ _
    show renderSegs segs = _
    rw [map_substSegs_nil]
  | cons img rest ih =>
    intro idx segs hwf hdata hfn
    have htag : '\x7b' ∉ mkImgTag fileName idx img :=
      mkImgTag_no_lbrace fileName idx img
        (hdata img (List.mem_cons_self img rest)) hfn
    show substituteImagePlaceholders fileName
      (replaceAll (renderSegs segs) (placeholder idx)
        (mkImgTag fileName idx img)) rest (idx + 1) = _
    rw [replaceAll_render idx (mkImgTag fileName idx img) segs hwf]
    rw [ih (idx + 1) (segs.map (substSeg idx (mkImgTag fileName idx img)))
      (fun sg hsg => by
        obtain ⟨a, ha, rfl⟩ := List.mem_map.mp hsg
        exact segWf_substSeg htag a (hwf a ha))
      (fun i hi => hdata i (List.mem_cons_of_mem img hi)) hfn]
    rw [List.map_map]
    rfl

theorem segWf_substSegs (fileName : List Char)
    (hfn : '\x7b' ∉ fileName) :
    ∀ imgs idx sg, (∀ img ∈ imgs, '\x7b' ∉ img.data) →
      segWf sg → segWf (substSegs fileName imgs idx sg) := by
  intro imgs
  induction imgs with
  | nil => intro idx sg _ hsg; exact hsg
  | cons img rest ih =>
    intro idx sg hdata hsg
    show segWf (substSegs fileName rest (idx + 1)
      (substSeg idx (mkImgTag fileName idx img) sg))
    exact ih (idx + 1) _
      (fun i hi => hdata i (List.mem_cons_of_mem img hi))
      (segWf_substSeg (mkImgTag_no_lbrace fileName idx img
        (hdata img (List.mem_cons_self img rest)) hfn) sg hsg)

/-- Claim C6 (Image-placeholder reconciliation): for model output made of
brace-free chunks and placeholder tokens, and `k` extracted images (with
brace-free data URIs and file name), the pdf-to-html post-processing
replaces every `{{IMAGE_i}}` token with `i < k` by the corresponding
`<img>` tag and removes every `{{IMAGE_j}}` token with `j ≥ k`, leaving
all chunks intact. -/
theorem imagePlaceholderReconciliation (segs : List Seg)
    (fileName : List Char) (images : List PdfImage)
    (hsegs : ∀ sg ∈ segs, segWf sg)
    (hdata : ∀ img ∈ images, '\x7b' ∉ img.data)
    (hfn : '\x7b' ∉ fileName) :
    pdfToHtmlPostprocess (renderSegs segs) fileName images
      = (segs.map (fun sg =>
          match sg with
          | Seg.chunk c => c
          | Seg.ph n =>
            match images.get? n with
            | some img => mkImgTag fileName n img
            | none => [])).join := by
  unfold pdfToHtmlPostprocess
  cases images with
  | nil =>
    rw [if_neg (by simp)]
    rw [strip_render segs hsegs]
    apply congrArg List.join
    apply List.map_congr_left
    intro sg _
    cases sg <;> rfl
  | cons img rest =>
    rw [if_pos (by simp)]
    rw [substImages_render fileName (img :: rest) 0 segs hsegs hdata hfn]
    rw [strip_render _ (fun sg hsg => by
      obtain ⟨a, ha, rfl⟩ := List.mem_map.mp hsg
      exact segWf_substSegs fileName hfn (img :: rest) 0 a hdata (hsegs a ha))]
    rw [List.map_map]
    apply congrArg List.join
    apply List.map_congr_left
    intro sg _
    cases sg with
    | chunk c =>
      show (match substSegs fileName (img :: rest) 0 (Seg.chunk c) with
        | Seg.chunk c => c | Seg.ph _ => ([] : List Char)) = c
      rw [substSegs_chunk]
    | ph n =>
      show (match substSegs fileName (img :: rest) 0 (Seg.ph n) with
          | Seg.chunk c => c
          | Seg.ph _ => ([] : List Char))
        = (match (img :: rest).get? n with
          | some i => mkImgTag fileName n i
          | none => ([] : List Char))
      rw [substSegs_ph]
      unfold phResolveSeg
      rw [if_pos (Nat.zero_le n), Nat.sub_zero]
      cases hget : (img :: rest).get? n with
      | some i => rfl
      | none => rfl

def sampleSegs : List Seg :=
  [Seg.chunk (("<h1>T</h1>").toList), Seg.ph 0,
   Seg.chunk (("<p>a</p>").toList), Seg.ph 1, Seg.ph 2, Seg.ph 3, Seg.ph 4]

def sampleImages : List PdfImage :=
  [⟨("d0").toList, 1, 2⟩, ⟨("d1").toList, 3, 4⟩, ⟨("d2").toList, 5, 6⟩]

set_option maxRecDepth 20000 in
theorem imagePlaceholderReconciliation_witness :
    pdfToHtmlPostprocess (renderSegs sampleSegs) (("f.pdf").toList)
      sampleImages
      = (sampleSegs.map (fun sg =>
          match sg with
          | Seg.chunk c => c
          | Seg.ph n =>
            match sampleImages.get? n with
            | some img => mkImgTag (("f.pdf").toList) n img
            | none => [])).join ∧
    (sampleSegs.map (fun sg =>
        match sg with
        | Seg.chunk c => c
        | Seg.ph n =>
          match sampleImages.get? n with
          | some img => mkImgTag (("f.pdf").toList) n img
          | none => [])).join
      = ("<h1>T</h1><img src=\x22d0\x22 alt=\x22Image 1 from f.pdf\x22 width=\x221\x22 height=\x222\x22 /><p>a</p><img src=\x22d1\x22 alt=\x22Image 2 from f.pdf\x22 width=\x223\x22 height=\x224\x22 /><img src=\x22d2\x22 alt=\x22Image 3 from f.pdf\x22 width=\x225\x22 height=\x226\x22 />").toList :=
  ⟨imagePlaceholderReconciliation sampleSegs (("f.pdf").toList) sampleImages
    (by decide) (by decide) (by decide), by decide⟩

/-!
## AI-response JSON extraction (the enhance-content handler)

The handler extracts the JSON payload with
`text.match(/```json\s*([\s\S]*?)\s*```/) || text.match(/\{[\s\S]*\}/)`,
takes `jsonMatch[1] || jsonMatch[0]` (falling back to the whole text when
neither regex matches), trims it, and `JSON.parse`s it.  The first regex
captures, after the leftmost ` ```json `, the lazily-shortest span
terminated by `\s*```; the second spans greedily from the first `{` to
the last `}` of the whole output.
-/

def fence3 : List Char := ("```").toList

def fenceOpenLit : List Char := ("```json").toList

/-- End of the lazy group `([\s\S]*?)` before `\s*``` `: the least offset
`q` into `body` such that, after skipping whitespace, the closing fence
follows. -/
def findLazyEnd (body : List Char) : Option Nat :=
  if fence3.isPrefixOf (body.dropWhile isJsWs) = true then some 0
  else
    match body with
    | [] => none
    | _ :: t => (findLazyEnd t).map (· + 1)

/-- Model of `text.match(/```json\s*([\s\S]*?)\s*```/)`, returning
`(match[0], match[1])`. -/
def matchFencedJson (text : List Char) : Option (List Char × List Char) :=
  match firstIdxOf text fenceOpenLit with
  | none => none
  | some p =>
    let afterOpen := text.drop (p + 7)
    let ws1 := afterOpen.takeWhile isJsWs
    let body := afterOpen.drop ws1.length
    match findLazyEnd body with
    | none => none
    | some q =>
      let group := body.take q
      let ws2 := (body.drop q).takeWhile isJsWs
      some (fenceOpenLit ++ ws1 ++ group ++ ws2 ++ fence3, group)

def firstCharIdx (p : Char → Bool) : List Char → Option Nat
  | [] => none
  | c :: t => if p c then some 0 else (firstCharIdx p t).map (· + 1)

def lastIdxOf (c : Char) (l : List Char) : Option Nat :=
  (firstCharIdx (fun x => x = c) l.reverse).map (fun r => l.length - 1 - r)

/-- Model of `text.match(/\{[\s\S]*\}/)`: from the first `{`, greedily to
the last `}` of the text (when one lies strictly after that `{`). -/
def matchBraceSpan (text : List Char) : Option (List Char) :=
  match firstCharIdx (fun x => x = '\x7b') text, lastIdxOf '\x7d' text with
  | some p, some q =>
    if p < q then some ((text.drop p).take (q + 1 - p)) else none
  | _, _ => none

/-- The handler's `jsonText`: fenced-block group first (`match[1]`,
falling back to `match[0]` when the captured group is the empty string,
which is falsy in JS), else the brace span, else the whole text. -/
def extractJsonText (text : List Char) : List Char :=
  match matchFencedJson text with
  | some (whole, group) => if group ≠ [] then group else whole
  | none =>
    match matchBraceSpan text with
    | some m => m
    | none => text

/-- What is handed to `JSON.parse`: `jsonText.trim()`. -/
def responseJsonText (text : List Char) : List Char :=
  jsTrim (extractJsonText text)

/-- Claim C7 counterexample: the unfenced fallback does not locate the
first well-formed JSON object.  On the output
`{"a":1} x {"b":2}` the extraction yields the whole greedy span (first
`{` to last `}`), which strictly contains the first JSON object
`{"a":1}` plus trailing text. -/
theorem jsonExtractionCounterexample :
    responseJsonText (("\x7b\x22a\x22:1\x7d x \x7b\x22b\x22:2\x7d").toList)
      = ("\x7b\x22a\x22:1\x7d x \x7b\x22b\x22:2\x7d").toList ∧
    responseJsonText (("\x7b\x22a\x22:1\x7d x \x7b\x22b\x22:2\x7d").toList)
      ≠ ("\x7b\x22a\x22:1\x7d").toList := by
  constructor
  · decide
  · decide

theorem isPrefixOf_cons_false {p c : Char} {pt l : List Char} (h : p ≠ c) :
    (p :: pt).isPrefixOf (c :: l) = false := by
  cases hb : (p :: pt).isPrefixOf (c :: l) with
  | false => rfl
  | true =>
    exact absurd (List.cons_prefix_cons.mp (isPrefixOf_iff_isPre.mp hb)).1 h

theorem findLazyEnd_eq_some :
    ∀ (body : List Char) (q : Nat),
      fence3.isPrefixOf ((body.drop q).dropWhile isJsWs) = true →
      (∀ r, r < q →
        fence3.isPrefixOf ((body.drop r).dropWhile isJsWs) = false) →
      findLazyEnd body = some q := by
  intro body
  induction body with
  | nil =>
    intro q hc _
    simp only [List.drop_nil] at hc
    exact absurd hc (by decide)
  | cons c t ih =>
    intro q hc hmin
    cases q with
    | zero =>
      rw [List.drop_zero] at hc
      unfold findLazyEnd
      rw [if_pos hc]
    | succ q' =>
      have h0 := hmin 0 (by omega)
      rw [List.drop_zero] at h0
      unfold findLazyEnd
      rw [if_neg (by rw [h0]; exact Bool.false_ne_true)]
      have ht : findLazyEnd t = some q' := by
        apply ih q'
        · exact hc
        · intro r hr
          exact hmin (r + 1) (by omega)
      show (findLazyEnd t).map (· + 1) = some (q' + 1)
      rw [ht]
      rfl

theorem firstIdxOf_self_append (pat r : List Char) :
    firstIdxOf (pat ++ r) pat = some 0 := by
  unfold firstIdxOf
  rw [if_pos (isPrefixOf_iff_isPre.mpr (List.prefix_append _ _))]

theorem jsTrim_brace (mid : List Char) :
    jsTrim (('\x7b' :: mid) ++ ['\x7d']) = ('\x7b' :: mid) ++ ['\x7d'] := by
  unfold jsTrim
  rw [show (('\x7b' :: mid) ++ ['\x7d']) = '\x7b' :: (mid ++ ['\x7d']) from rfl,
    List.dropWhile_cons, if_neg (by decide)]
  rw [show ('\x7b' :: (mid ++ ['\x7d'])) = ('\x7b' :: mid) ++ ['\x7d'] from rfl,
    List.reverse_append]
  rw [show (['\x7d'].reverse ++ ('\x7b' :: mid).reverse)
    = '\x7d' :: ('\x7b' :: mid).reverse from rfl]
  rw [List.dropWhile_cons, if_neg (by decide)]
  rw [List.reverse_cons, List.reverse_reverse]

theorem matchFencedJson_none_of_no_backtick {j : List Char}
    (hbq : '\x60' ∉ j) : matchFencedJson j = none := by
  cases hf : firstIdxOf j fenceOpenLit with
  | none => unfold matchFencedJson; rw [hf]
  | some p =>
    exfalso
    obtain ⟨r, hr⟩ := (firstIdxOf_eq_some hf).1
    apply hbq
    apply List.mem_of_mem_drop (show '\x60' ∈ j.drop p from by
      rw [← hr]
      exact List.mem_append.mpr (Or.inl (by decide)))

theorem matchBraceSpan_plain (mid : List Char) :
    matchBraceSpan (('\x7b' :: mid) ++ ['\x7d'])
      = some (('\x7b' :: mid) ++ ['\x7d']) := by
  have h1 : firstCharIdx (fun x => x = '\x7b') (('\x7b' :: mid) ++ ['\x7d'])
      = some 0 := by
    rw [show (('\x7b' :: mid) ++ ['\x7d'])
      = '\x7b' :: (mid ++ ['\x7d']) from rfl]
    unfold firstCharIdx
    rw [if_pos (by decide)]
  have hrev : (('\x7b' :: mid) ++ ['\x7d']).reverse
      = '\x7d' :: ('\x7b' :: mid).reverse := by
    rw [List.reverse_append]
    rfl
  have h2 : lastIdxOf '\x7d' (('\x7b' :: mid) ++ ['\x7d'])
      = some ((('\x7b' :: mid) ++ ['\x7d']).length - 1) := by
    unfold lastIdxOf
    rw [hrev]
    rw [show firstCharIdx (fun x => x = '\x7d')
        ('\x7d' :: ('\x7b' :: mid).reverse) = some 0 from by
      unfold firstCharIdx
      rw [if_pos (by decide)]]
    rfl
  have hlen : (('\x7b' :: mid) ++ ['\x7d']).length = mid.length + 2 := by
    simp [List.length_append]
  unfold matchBraceSpan
  rw [h1, h2]
  dsimp only
  rw [if_pos (by rw [hlen]; omega)]
  rw [List.drop_zero]
  rw [show (('\x7b' :: mid) ++ ['\x7d']).length - 1 + 1 - 0
    = (('\x7b' :: mid) ++ ['\x7d']).length from by rw [hlen]; omega]
  rw [List.take_length]

theorem matchFencedJson_fence (mid : List Char)
    (hbq : '\x60' ∉ (('\x7b' :: mid) ++ ['\x7d'])) :
    ∃ whole, matchFencedJson ((("```json\n").toList
        ++ (('\x7b' :: mid) ++ ['\x7d'])) ++ ("\n```").toList)
      = some (whole, ('\x7b' :: mid) ++ ['\x7d']) := by
  have hshape : (("```json\n").toList ++ (('\x7b' :: mid) ++ ['\x7d']))
        ++ ("\n```").toList
      = fenceOpenLit ++ ('\n' :: ((('\x7b' :: mid) ++ ['\x7d'])
        ++ ('\n' :: fence3))) := by
    rw [show ("```json\n").toList = fenceOpenLit ++ ['\n'] from rfl,
      show ("\n```").toList = '\n' :: fence3 from rfl]
    simp [List.append_assoc]
  have hjlen : (('\x7b' :: mid) ++ ['\x7d']).length = mid.length + 2 := by
    simp [List.length_append]
  have hdrop7 : (fenceOpenLit ++ ('\n' :: ((('\x7b' :: mid) ++ ['\x7d'])
      ++ ('\n' :: fence3)))).drop (0 + 7)
      = '\n' :: ((('\x7b' :: mid) ++ ['\x7d']) ++ ('\n' :: fence3)) := by
    rw [show ((0 : Nat) + 7) = fenceOpenLit.length from rfl, List.drop_left]
  have htw : ('\n' :: ((('\x7b' :: mid) ++ ['\x7d'])
      ++ ('\n' :: fence3))).takeWhile isJsWs = ['\n'] := by
    rw [List.takeWhile_cons, if_pos (by decide)]
    rw [show ((('\x7b' :: mid) ++ ['\x7d']) ++ ('\n' :: fence3))
      = '\x7b' :: ((mid ++ ['\x7d']) ++ ('\n' :: fence3)) from rfl]
    rw [List.takeWhile_cons, if_neg (by decide)]
  have hlz : findLazyEnd ((('\x7b' :: mid) ++ ['\x7d']) ++ ('\n' :: fence3))
      = some (('\x7b' :: mid) ++ ['\x7d']).length := by
    apply findLazyEnd_eq_some
    · rw [List.drop_left]
      rw [List.dropWhile_cons, if_pos (by decide)]
      rw [show fence3.dropWhile isJsWs = fence3 from by
        rw [show fence3 = '\x60' :: ("``").toList from rfl,
          List.dropWhile_cons, if_neg (by decide)]]
      exact isPrefixOf_iff_isPre.mpr (List.prefix_refl fence3)
    · intro r hr
      rw [hjlen] at hr
      have hjr : (('\x7b' :: mid) ++ ['\x7d']).drop r
          = (('\x7b' :: mid).drop r) ++ ['\x7d'] :=
        List.drop_append_of_le_length (by simp; omega)
      have hbodyr : ((('\x7b' :: mid) ++ ['\x7d']) ++ ('\n' :: fence3)).drop r
          = (('\x7b' :: mid).drop r) ++ ('\x7d' :: ('\n' :: fence3)) := by
        rw [List.drop_append_of_le_length (by rw [hjlen]; omega), hjr,
          List.append_assoc]
        rfl
      rw [hbodyr, List.dropWhile_append]
      by_cases he : ((('\x7b' :: mid).drop r).dropWhile isJsWs).isEmpty = true
      · rw [if_pos he]
        rw [List.dropWhile_cons, if_neg (by decide)]
        exact isPrefixOf_cons_false (by decide)
      · rw [if_neg he]
        cases hu : (('\x7b' :: mid).drop r).dropWhile isJsWs with
        | nil => rw [hu] at he; exact absurd rfl he
        | cons d w =>
          apply isPrefixOf_cons_false
          intro hd
          apply hbq
          have hsuf : (('\x7b' :: mid).drop r).dropWhile isJsWs
              <:+ (('\x7b' :: mid).drop r) := List.dropWhile_suffix isJsWs
          rw [hu] at hsuf
          have hdu : d ∈ ('\x7b' :: mid).drop r :=
            hsuf.sublist.mem (List.mem_cons_self d w)
          have hdm : d ∈ ('\x7b' :: mid) := List.mem_of_mem_drop hdu
          rw [← hd] at hdm
          exact List.mem_append.mpr (Or.inl hdm)
  refine ⟨fenceOpenLit ++ ['\n'] ++ (('\x7b' :: mid) ++ ['\x7d'])
    ++ (((('\x7b' :: mid) ++ ['\x7d']) ++ ('\n' :: fence3)).drop
        (('\x7b' :: mid) ++ ['\x7d']).length).takeWhile isJsWs ++ fence3, ?_⟩
  rw [hshape]
  unfold matchFencedJson
  rw [firstIdxOf_self_append]
  dsimp only
  rw [hdrop7, htw]
  rw [show (['\n'] : List Char).length = 1 from rfl]
  rw [show ('\n' :: ((('\x7b' :: mid) ++ ['\x7d']) ++ ('\n' :: fence3))).drop 1
    = (('\x7b' :: mid) ++ ['\x7d']) ++ ('\n' :: fence3) from rfl]
  rw [hlz]
  dsimp only
  rw [List.take_left]

/-- Claim C7 (amended): for a JSON object text `j = '{' ++ mid ++ '}'`
containing no backtick, the handler's extraction yields `j` itself both
when the model output is `j` alone (via the brace-span fallback, which
spans the first `{` to the last `}` — here exactly `j`) and when it is
`j` wrapped in a ` ```json ` fenced code block (via the fenced-block
match); the string handed to `JSON.parse` is identical in both cases, so
the parsed payload and the response coincide.  The claim's stronger
reading — that the fallback locates the first well-formed JSON object in
arbitrary free text — is false (see the counterexample): the fallback is
greedy to the last `}` of the whole output. -/
theorem jsonExtractionEquivalence (mid : List Char)
    (hbq : '\x60' ∉ (('\x7b' :: mid) ++ ['\x7d'])) :
    responseJsonText ((("```json\n").toList ++ (('\x7b' :: mid) ++ ['\x7d']))
        ++ ("\n```").toList)
      = ('\x7b' :: mid) ++ ['\x7d'] ∧
    responseJsonText (('\x7b' :: mid) ++ ['\x7d'])
      = ('\x7b' :: mid) ++ ['\x7d'] := by
  constructor
  · obtain ⟨whole, hm⟩ := matchFencedJson_fence mid hbq
    unfold responseJsonText extractJsonText
    rw [hm]
    dsimp only
    rw [if_pos (by simp)]
    exact jsTrim_brace mid
  · unfold responseJsonText extractJsonText
    rw [matchFencedJson_none_of_no_backtick hbq]
    dsimp only
    rw [matchBraceSpan_plain mid]
    exact jsTrim_brace mid

theorem jsonExtractionEquivalence_witness :
    responseJsonText (("```json\n\x7b\x22action\x22:\x22replace\x22,\x22new_html\x22:\x22<p>Hi</p>\x22\x7d\n```").toList)
      = ("\x7b\x22action\x22:\x22replace\x22,\x22new_html\x22:\x22<p>Hi</p>\x22\x7d").toList ∧
    responseJsonText (("\x7b\x22action\x22:\x22replace\x22,\x22new_html\x22:\x22<p>Hi</p>\x22\x7d").toList)
      = ("\x7b\x22action\x22:\x22replace\x22,\x22new_html\x22:\x22<p>Hi</p>\x22\x7d").toList := by
  have h := jsonExtractionEquivalence
    (("\x22action\x22:\x22replace\x22,\x22new_html\x22:\x22<p>Hi</p>\x22").toList)
    (by decide)
  constructor
  · rw [show (("```json\n\x7b\x22action\x22:\x22replace\x22,\x22new_html\x22:\x22<p>Hi</p>\x22\x7d\n```").toList)
      = (("```json\n").toList ++ (('\x7b'
          :: ("\x22action\x22:\x22replace\x22,\x22new_html\x22:\x22<p>Hi</p>\x22").toList)
          ++ ['\x7d'])) ++ ("\n```").toList from by decide]
    rw [h.1]
    decide
  · rw [show (("\x7b\x22action\x22:\x22replace\x22,\x22new_html\x22:\x22<p>Hi</p>\x22\x7d").toList)
      = ('\x7b' :: ("\x22action\x22:\x22replace\x22,\x22new_html\x22:\x22<p>Hi</p>\x22").toList)
          ++ ['\x7d'] from by decide]
    rw [h.2]
